import Mathlib

/-!
Verification of the sanity-io/migrations scripts: a shallow embedding of the
three one-off document-migration scripts (the `date` → `richDate` field rename,
the draft-reference repair, and the rich-text span restructuring) together with
the paginated document fetcher, plus proofs about the embedded definitions.

Documents are JSON-like trees.  JavaScript runtime behaviour that the scripts
rely on (property access, truthiness, `Object.assign` upsert semantics, string
coercion of property keys, thrown `TypeError`s) is modelled explicitly; fallible
code returns `Except JsErr`.  The value `Json.undef` models JavaScript's
`undefined` where it can flow into constructed values.
-/

/-- A JSON-like document value, extended with `undef` for JavaScript's
`undefined` (which can appear in values built by the scripts, never in
fetched documents). Objects are insertion-ordered association lists, as in
JavaScript. -/
inductive Json where
  | null
  | undef
  | bool (b : Bool)
  | num (n : Int)
  | str (s : String)
  | arr (items : List Json)
  | obj (fields : List (String × Json))
deriving Repr

/-- One segment of a key path: a mapping key or a sequence index. -/
inductive Seg where
  | key (s : String)
  | idx (n : Nat)
deriving Repr, DecidableEq

/-- A JavaScript `TypeError` (the only exception kind the scripts can raise
during a transform: reading a property of `null`/`undefined`, or calling a
method that does not exist). -/
inductive JsErr where
  | typeError
deriving Repr, DecidableEq

/-- JavaScript truthiness of a value. -/
def truthy : Json → Bool
  | Json.null => false
  | Json.undef => false
  | Json.bool b => b
  | Json.num n => n != 0
  | Json.str s => !s.data.isEmpty
  | Json.arr _ => true
  | Json.obj _ => true

/-- Truthiness of a possibly-absent value (`none` models `undefined`). -/
def truthyOpt : Option Json → Bool
  | none => false
  | some v => truthy v

/-- First-occurrence lookup in an association list (JavaScript objects have
unique keys, so first occurrence is the occurrence). -/
def assocGet {α : Type} : List (String × α) → String → Option α
  | [], _ => none
  | (k', v) :: rest, k => if k' = k then some v else assocGet rest k

/-- JavaScript property-assignment/`Object.assign` upsert: replace the value at
an existing key in place (keeping its position), else append the new key. -/
def assocSet {α : Type} : List (String × α) → String → α → List (String × α)
  | [], k, v => [(k, v)]
  | (k', v') :: rest, k, v =>
      if k' = k then (k, v) :: rest else (k', v') :: assocSet rest k v

/-- JavaScript property access `value[k]` for the values the scripts read
properties from; `none` is `undefined`.  Reading a property of `null` or
`undefined` throws and is handled explicitly by the callers that can hit it. -/
def jsGetF : Json → String → Option Json
  | Json.obj fields, k => assocGet fields k
  | _, _ => none

/-- JavaScript `typeof value === 'object'` (true for `null`, arrays and
objects). -/
def isObjectTypeof : Json → Bool
  | Json.null => true
  | Json.arr _ => true
  | Json.obj _ => true
  | _ => false

/-- Lodash `isPlainObject`: true exactly for plain objects. -/
def isPlainObject : Json → Bool
  | Json.obj _ => true
  | _ => false

/-- Decimal digits of a natural number, least significant first; the first
argument is fuel (taking the number itself suffices). -/
def natDigitsAux : Nat → Nat → List Nat
  | 0, _ => []
  | fuel + 1, n => if n = 0 then [] else (n % 10) :: natDigitsAux fuel (n / 10)

/-- Decimal digits of a natural number, least significant first. -/
def natDigits (n : Nat) : List Nat := natDigitsAux n n

/-- Decimal rendering of a natural number, as JavaScript renders numbers in
template literals and array indices. -/
def natRepr (n : Nat) : String :=
  if n = 0 then "0" else ((natDigits n).reverse.map Nat.digitChar).asString

/-- Decimal rendering of an integer. -/
def intRepr (n : Int) : String :=
  if n < 0 then "-" ++ natRepr n.natAbs else natRepr n.toNat

mutual
/-- JavaScript `String(v)` coercion for defined values. -/
def jsToStr : Json → String
  | Json.null => "null"
  | Json.undef => "undefined"
  | Json.bool true => "true"
  | Json.bool false => "false"
  | Json.num n => intRepr n
  | Json.str s => s
  | Json.arr items => jsArrJoin items
  | Json.obj _ => "[object Object]"
/-- JavaScript `Array.prototype.toString` (`join(",")`, rendering `null` and
`undefined` elements as the empty string). -/
def jsArrJoin : List Json → String
  | [] => ""
  | [x] => jsArrElemStr x
  | x :: rest => jsArrElemStr x ++ "," ++ jsArrJoin rest
/-- One array element under `join`: `null`/`undefined` render empty, other
values coerce as under `String(v)`. -/
def jsArrElemStr : Json → String
  | Json.null => ""
  | Json.undef => ""
  | Json.bool true => "true"
  | Json.bool false => "false"
  | Json.num n => intRepr n
  | Json.str s => s
  | Json.arr items => jsArrJoin items
  | Json.obj _ => "[object Object]"
end

/-- JavaScript property-key coercion of a possibly-absent value (used when a
document id is used as an object key: `acc[doc._id]`). -/
def jsPropKey : Option Json → String
  | none => "undefined"
  | some v => jsToStr v

mutual
/-- Pre-order list of all (key path, value) pairs of a document: the node
itself, then its children in insertion/index order, each child's path extending
the node's by one segment. -/
def jsonNodes : Json → List Seg → List (List Seg × Json)
  | j@(Json.obj fields), path => (path, j) :: fieldNodes fields path
  | j@(Json.arr items), path => (path, j) :: itemNodes items 0 path
  | j, path => [(path, j)]
/-- Nodes of an object's fields, in insertion order. -/
def fieldNodes : List (String × Json) → List Seg → List (List Seg × Json)
  | [], _ => []
  | (k, v) :: rest, path => jsonNodes v (path ++ [Seg.key k]) ++ fieldNodes rest path
/-- Nodes of an array's items, in index order starting at `i`. -/
def itemNodes : List Json → Nat → List Seg → List (List Seg × Json)
  | [], _, _ => []
  | v :: rest, i, path => jsonNodes v (path ++ [Seg.idx i]) ++ itemNodes rest (i + 1) path
end

/-- Modelled from the spec: the `json-reduce` dependency (the PathedTreeWalker
component, spec §4.1 and §8), whose source is not in the repository.  It visits
the root and every mapping entry and sequence element exactly once, depth-first
in insertion/index order, invoking `reducer accumulator value keyPath` at every
visited value and replacing the accumulator with the result. -/
def jsonReduce {α : Type} (reducer : α → Json → List Seg → α) (doc : Json) (init : α) : α :=
  (jsonNodes doc []).foldl (fun acc pv => reducer acc pv.2 pv.1) init

/-! ### Path serialization

`serializePath` appears twice in the sources, once in the draft-reference
script and once in the span-migration script, with identical text. -/

/-- `serializePath` from the draft-reference script: indices render bracketed
with no separator, string keys are dot-joined, no leading separator. -/
def serializePath (path : List Seg) : String :=
  (path.foldl (fun target part =>
      let seperator := if target.2 = 0 then "" else "."
      let add := match part with
        | Seg.idx n => "[" ++ natRepr n ++ "]"
        | Seg.key s => seperator ++ s
      (target.1 ++ add, target.2 + 1)) ("", 0)).1

/-- `serializePath` from the span-migration script (identical text). -/
def serializePath001 (path : List Seg) : String :=
  (path.foldl (fun target part =>
      let seperator := if target.2 = 0 then "" else "."
      let add := match part with
        | Seg.idx n => "[" ++ natRepr n ++ "]"
        | Seg.key s => seperator ++ s
      (target.1 ++ add, target.2 + 1)) ("", 0)).1

/-- One segment under `Array.prototype.join`: numbers render decimal. -/
def segJoinStr : Seg → String
  | Seg.key s => s
  | Seg.idx n => natRepr n

/-- JavaScript `path.join('.')` on a key path, as used by the field-rename
transform: every segment (indices included) rendered and dot-joined. -/
def joinDot (path : List Seg) : String :=
  String.intercalate "." (path.map segJoinStr)

/-! ### The field-rename (`date` → `richDate`) transform, from `migrate.js` -/

/-- A per-document set-patch descriptor (`{document, set}`). -/
structure SetPatch where
  document : Json
  set : List (String × Json)

/-- The reducer of `generatePatchesForDocument`: on a node whose last key
segment is `_type` with value the string `date`, record
`set[path.join('.')] = 'richDate'`. -/
def datePatchStep (acc : List (String × Json)) (value : Json) (path : List Seg) :
    List (String × Json) :=
  let keyIsType := match path.getLast? with
    | some (Seg.key k) => k == "_type"
    | _ => false
  let valueIsDate := match value with
    | Json.str s => s == "date"
    | _ => false
  if keyIsType && valueIsDate then assocSet acc (joinDot path) (Json.str "richDate") else acc

/-- `generatePatchesForDocument` from `migrate.js`: walk the document, collect
the `date`-typed nodes, return `null` when none matched. -/
def generatePatchesForDocument (document : Json) : Option SetPatch :=
  let patches := jsonReduce datePatchStep document []
  if patches.length = 0 then none else some ⟨document, patches⟩

/-! ### The draft-reference repair script (second script in `migrate.js`) -/

/-- The reserved draft id marker `drafts.` has length 7. -/
def draftsMarker : String := "drafts."

/-- `isDraftId`: the id starts with the draft marker (character-level
`startsWith`). -/
def isDraftId (id : String) : Bool :=
  id.data.take draftsMarker.data.length == draftsMarker.data

/-- `getPublishedId`: strip one draft marker if present
(`_removeDraftPrefix` is `id.slice(7)` inlined, character-level). -/
def getPublishedId (id : String) : String :=
  if isDraftId id then String.mk (id.data.drop draftsMarker.data.length) else id

/-- `getDraftId`: prepend the draft marker unless already present. -/
def getDraftId (id : String) : String :=
  if isDraftId id then id else draftsMarker ++ id

/-- One repaired reference: the serialized key path of the reference object and
its fixed copy (`{...value, _ref: getPublishedId(value._ref)}`). -/
structure BadRef where
  path : String
  fixed : Json

/-- The per-document result of `getBadRefsForDocument` when at least one bad
reference was found. -/
structure DocBadRefs where
  document : Json
  badRefs : List BadRef

/-- The reducer of `getBadRefsForDocument`.  Mirrors the JavaScript evaluation
order: the `typeof value === 'object'` guard lets `null` through, and reading
`value._ref` then throws; a truthy non-string `_ref` throws when
`isDraftId` calls `startsWith` on it. -/
def badRefStep (acc : Except JsErr (List BadRef)) (value : Json) (keyPath : List Seg) :
    Except JsErr (List BadRef) :=
  match acc with
  | Except.error e => Except.error e
  | Except.ok l =>
    if !(isObjectTypeof value) then Except.ok l
    else match value with
      | Json.null => Except.error JsErr.typeError
      | _ =>
        match jsGetF value "_ref" with
        | none => Except.ok l
        | some rv =>
          if !(truthy rv) then Except.ok l
          else if truthyOpt (jsGetF value "_weak") then Except.ok l
          else match rv with
            | Json.str r =>
                if isDraftId r then
                  match value with
                  | Json.obj fields =>
                      Except.ok (l ++ [⟨serializePath keyPath,
                        Json.obj (assocSet fields "_ref" (Json.str (getPublishedId r)))⟩])
                  | _ => Except.ok l
                else Except.ok l
            | _ => Except.error JsErr.typeError

/-- `getBadRefsForDocument`: walk the document collecting repaired references;
`null` when none found. -/
def getBadRefsForDocument (document : Json) : Except JsErr (Option DocBadRefs) :=
  match jsonReduce badRefStep document (Except.ok []) with
  | Except.error e => Except.error e
  | Except.ok badRefs =>
      Except.ok (if badRefs.length = 0 then none else some ⟨document, badRefs⟩)

/-- The property key a document is stored under in `keyBy(docs, doc => doc._id)`:
reading `_id` of `null` throws, otherwise the value (or `undefined`) is coerced
to a property key. -/
def jsIdKey (item : Json) : Except JsErr String :=
  match item with
  | Json.null => Except.error JsErr.typeError
  | Json.undef => Except.error JsErr.typeError
  | _ => Except.ok (jsPropKey (jsGetF item "_id"))

/-- `keyBy(items, accessor)` with the `doc._id` accessor: a reduce of
`Object.assign(acc, {[id]: item})`, so a duplicate id keeps its first position
but the last item. -/
def keyBy : List Json → List (String × Json) → Except JsErr (List (String × Json))
  | [], acc => Except.ok acc
  | item :: rest, acc =>
      match jsIdKey item with
      | Except.error e => Except.error e
      | Except.ok k => keyBy rest (assocSet acc k item)

/-- `flatten`: a reduce of `concat`. -/
def flatten {α : Type} (xs : List (List α)) : List α :=
  xs.foldl (fun flat item => flat ++ item) []

/-- `uniqBy(items, p => p._id)`: key the items by id, then read the values back
in key order. -/
def uniqById (items : List Json) : Except JsErr (List Json) :=
  match keyBy items [] with
  | Except.error e => Except.error e
  | Except.ok keyed => Except.ok (keyed.map (fun kv => kv.2))

/-- JavaScript object-spread `{...v}` of a possibly-absent value: objects
contribute their fields, arrays and strings their index properties, everything
else nothing. -/
def jsSpreadFields : Option Json → List (String × Json)
  | some (Json.obj fs) => fs
  | some (Json.arr xs) => (List.range xs.length).zip xs |>.map (fun iv => (natRepr iv.1, iv.2))
  | some (Json.str s) =>
      (List.range s.data.length).zip s.data |>.map
        (fun ic => (natRepr ic.1, Json.str (String.singleton ic.2)))
  | _ => []

/-- The placeholder computation for one repaired reference inside
`getDocsWithPublishFlag`: look up the published and draft copies of the
referenced id; if a published copy exists the entry is `null`, otherwise the
placeholder `{...draft, _id: publishedId}` (which is `{_id: publishedId}` when
no draft copy exists either).  A non-string `fixed._ref` would make
`getPublishedId` throw. -/
def placeholderFor (allDocsById : List (String × Json)) (badRef : BadRef) :
    Except JsErr (Option Json) :=
  match jsGetF badRef.fixed "_ref" with
  | some (Json.str referencedDocId) =>
      let published := assocGet allDocsById (getPublishedId referencedDocId)
      let draft := assocGet allDocsById (getDraftId referencedDocId)
      if truthyOpt published then Except.ok none
      else Except.ok (some (Json.obj
        (assocSet (jsSpreadFields draft) "_id" (Json.str (getPublishedId referencedDocId)))))
  | _ => Except.error JsErr.typeError

/-- Map `placeholderFor` over a list of repaired references, propagating the
first thrown error. -/
def collectPlaceholders (allDocsById : List (String × Json)) :
    List BadRef → Except JsErr (List (Option Json))
  | [] => Except.ok []
  | b :: rest =>
      match placeholderFor allDocsById b with
      | Except.error e => Except.error e
      | Except.ok p =>
          match collectPlaceholders allDocsById rest with
          | Except.error e => Except.error e
          | Except.ok ps => Except.ok (p :: ps)

/-- `getDocsWithPublishFlag(allDocs, docsWithBadRefs)`: key all fetched
documents by id, compute a placeholder (or `null`) per repaired reference,
drop the `null`s (`filter(Boolean)`; every placeholder is a truthy object),
and de-duplicate by placeholder id. -/
def getDocsWithPublishFlag (allDocs : List Json) (docsWithBadRefs : List DocBadRefs) :
    Except JsErr (List Json) :=
  match keyBy allDocs [] with
  | Except.error e => Except.error e
  | Except.ok allDocsById =>
      match collectPlaceholders allDocsById
          (flatten (docsWithBadRefs.map (fun d => d.badRefs))) with
      | Except.error e => Except.error e
      | Except.ok ps => uniqById (ps.filterMap (fun p => p))

/-- `getSetPatches`: one set-patch per document, assigning `fixed` at each
repaired reference's serialized path (`Object.assign` upsert over the paths). -/
def getSetPatches (docsWithBadRefs : List DocBadRefs) : List SetPatch :=
  docsWithBadRefs.map (fun d =>
    ⟨d.document, d.badRefs.foldl (fun s b => assocSet s b.path b.fixed) []⟩)

/-! ### The paginated fetcher (`fetchAllDocuments.js`) -/

/-- The offset-window fetch loop: fetch `[offset...offset+250]`, append the
batch, advance the offset by 250, and loop while the batch was non-empty
(`do ... while (batch.length)`).  `client offset limit` models one remote
fetch of the window `[offset...offset+limit]`; the `fuel` bound makes the
loop total, `none` meaning it did not finish within `fuel` iterations. -/
def fetchAllDocumentsAux (client : Nat → Nat → List Json) : Nat → Nat → Option (List Json)
  | 0, _ => none
  | fuel + 1, offset =>
      let batch := client offset 250
      if batch.length = 0 then some batch
      else match fetchAllDocumentsAux client fuel (offset + 250) with
        | none => none
        | some rest => some (batch ++ rest)

/-- `fetchAllDocuments(client)`: run the loop from offset 0. -/
def fetchAllDocuments (client : Nat → Nat → List Json) (fuel : Nat) : Option (List Json) :=
  fetchAllDocumentsAux client fuel 0

/-- Modelled from the spec: the claimed stopping rule — the same loop but
stopping as soon as a page returns fewer items than the page size.  Stated only
to compare against `fetchAllDocuments`. -/
def fetchAllDocumentsClaimAux (client : Nat → Nat → List Json) : Nat → Nat → Option (List Json)
  | 0, _ => none
  | fuel + 1, offset =>
      let batch := client offset 250
      if batch.length < 250 then some batch
      else match fetchAllDocumentsClaimAux client fuel (offset + 250) with
        | none => none
        | some rest => some (batch ++ rest)

/-- The claimed loop from offset 0. -/
def fetchAllDocumentsClaim (client : Nat → Nat → List Json) (fuel : Nat) : Option (List Json) :=
  fetchAllDocumentsClaimAux client fuel 0

/-! ### The rich-text span migration script

`generateKey` hashes `JSON.stringify(item)` with sha1 and keeps the first 8 hex
characters; the hash itself is external, so it is abstracted as a function
`h : Json → String` (the 8-character content hash of the item), and the
process-global `keysSeen` set and `tieBreaker` counter are threaded as explicit
state. -/

/-- The process-global key-generation state: the set of base keys already
handed out and the tie-breaker counter. -/
structure KeyGenState where
  keysSeen : List String
  tieBreaker : Nat
deriving Repr, DecidableEq

/-- The state before any key has been generated in a run. -/
def initialKeyGenState : KeyGenState := ⟨[], 0⟩

/-- `generateKey(item)`: take the 8-character content hash as the base key; if
it was seen before, return `` `${base}${++tieBreaker}` `` (without recording
it), else record and return the base.  (The `unique` parameter of the source is
never read.) -/
def generateKey (h : Json → String) (item : Json) (st : KeyGenState) :
    String × KeyGenState :=
  let base := h item
  if st.keysSeen.contains base then
    let t := st.tieBreaker + 1
    (base ++ natRepr t, ⟨st.keysSeen, t⟩)
  else
    (base, ⟨base :: st.keysSeen, st.tieBreaker⟩)

/-- `knownSpanKeys`. -/
def knownSpanKeys : List String := ["_type", "_key", "text"]

/-- JavaScript `Object.keys(v)` together with the property values, for the
values a span can be: objects give their fields, arrays and strings their
index properties, other primitives nothing. -/
def jsOwnProps : Json → List (String × Json)
  | Json.obj fs => fs
  | Json.arr xs => (List.range xs.length).zip xs |>.map (fun iv => (natRepr iv.1, iv.2))
  | Json.str s =>
      (List.range s.data.length).zip s.data |>.map
        (fun ic => (natRepr ic.1, Json.str (String.singleton ic.2)))
  | _ => []

/-- `[markKey].concat(span.marks)`: concatenating an array spreads it, any
other defined value is appended as a single element, and an absent `marks`
appends `undefined`. -/
def jsConcatMarks (markKey : String) (marks : Option Json) : List Json :=
  match marks with
  | some (Json.arr xs) => Json.str markKey :: xs
  | some v => [Json.str markKey, v]
  | none => [Json.str markKey, Json.undef]

/-- JavaScript `item._key === markKey` for a mark definition entry. -/
def hasMarkKey (item : Json) (markKey : String) : Bool :=
  match jsGetF item "_key" with
  | some (Json.str t) => t == markKey
  | _ => false

/-- One step of the per-span `Object.keys(span).reduce(...)`: skip `marks`,
copy known keys and non-plain-object values, skip empty custom marks, and for
a non-empty custom mark generate a key, prepend it to the span's `marks` on the
child, and record a mark definition unless one with that key exists. -/
def spanKeyStep (h : Json → String) (span : Json)
    (acc : List (String × Json) × List Json × KeyGenState) (prop : String × Json) :
    List (String × Json) × List Json × KeyGenState :=
  let (child, markDefs, st) := acc
  let (key, value) := prop
  if key == "marks" then (child, markDefs, st)
  else if knownSpanKeys.contains key || !(isPlainObject value) then
    (assocSet child key value, markDefs, st)
  else match value with
    | Json.obj kfs =>
        if kfs.length = 0 then (child, markDefs, st)
        else
          let gen := generateKey h value st
          let markKey := gen.1
          let child' := assocSet child "marks"
            (Json.arr (jsConcatMarks markKey (jsGetF span "marks")))
          let markDefs' :=
            if markDefs.any (fun item => hasMarkKey item markKey) then markDefs
            else markDefs ++ [Json.obj (assocSet (assocSet kfs "_type" (Json.str key))
              "_key" (Json.str markKey))]
          (child', markDefs', gen.2)
    | _ => (child, markDefs, st)

/-- Build one child from one span (the first `map` of `migrateSpans`):
start from `{marks: span.marks || []}` and reduce over the span's own keys.
`Object.keys(null)` throws. -/
def processSpan (h : Json → String) (span : Json) (markDefs : List Json)
    (st : KeyGenState) : Except JsErr (Json × List Json × KeyGenState) :=
  match span with
  | Json.null => Except.error JsErr.typeError
  | Json.undef => Except.error JsErr.typeError
  | _ =>
      let marks0 := match jsGetF span "marks" with
        | some m => if truthy m then m else Json.arr []
        | none => Json.arr []
      let folded := (jsOwnProps span).foldl (spanKeyStep h span) ([("marks", marks0)], markDefs, st)
      Except.ok (Json.obj folded.1, folded.2.1, folded.2.2)

/-- The first `map` of `migrateSpans` over all spans, threading the mark
definitions and the key state. -/
def processSpans (h : Json → String) :
    List Json → List Json → KeyGenState → Except JsErr (List Json × List Json × KeyGenState)
  | [], markDefs, st => Except.ok ([], markDefs, st)
  | span :: rest, markDefs, st =>
      match processSpan h span markDefs st with
      | Except.error e => Except.error e
      | Except.ok (child, markDefs', st') =>
          match processSpans h rest markDefs' st' with
          | Except.error e => Except.error e
          | Except.ok (children, markDefs'', st'') =>
              Except.ok (child :: children, markDefs'', st'')

/-- The second `map` of `migrateSpans`: give every child with a falsy `_key` a
generated one. -/
def addChildKeys (h : Json → String) :
    List Json → KeyGenState → List Json × KeyGenState
  | [], st => ([], st)
  | child :: rest, st =>
      if truthyOpt (jsGetF child "_key") then
        let tail := addChildKeys h rest st
        (child :: tail.1, tail.2)
      else
        let gen := generateKey h child st
        let child' := match child with
          | Json.obj fs => Json.obj (assocSet fs "_key" (Json.str gen.1))
          | other => other
        let tail := addChildKeys h rest gen.2
        (child' :: tail.1, tail.2)

/-- `migrateSpans(spans)`: split every span into a sanitized child plus mark
definitions.  Calling `.map` on a non-array throws. -/
def migrateSpans (h : Json → String) (spans : Json) (st : KeyGenState) :
    Except JsErr (List Json × List Json × KeyGenState) :=
  match spans with
  | Json.arr items =>
      match processSpans h items [] st with
      | Except.error e => Except.error e
      | Except.ok (children, markDefs, st') =>
          let keyed := addChildKeys h children st'
          Except.ok (keyed.1, markDefs, keyed.2)
  | _ => Except.error JsErr.typeError

/-- Lodash `get(doc, path)`: an empty path yields `undefined`; otherwise walk
the path, numeric segments indexing arrays (or looked up as string keys on
objects), returning `undefined` when the path does not resolve. -/
def lodashGetAux : Json → List Seg → Option Json
  | j, [] => some j
  | Json.obj fs, Seg.key k :: rest =>
      match assocGet fs k with
      | some v => lodashGetAux v rest
      | none => none
  | Json.obj fs, Seg.idx n :: rest =>
      match assocGet fs (natRepr n) with
      | some v => lodashGetAux v rest
      | none => none
  | Json.arr xs, Seg.idx n :: rest =>
      match xs.get? n with
      | some v => lodashGetAux v rest
      | none => none
  | _, _ :: _ => none

/-- Lodash `get` with its empty-path quirk: `get(doc, [])` is `undefined`. -/
def lodashGet (doc : Json) (path : List Seg) : Option Json :=
  match path with
  | [] => none
  | _ :: _ => lodashGetAux doc path

/-- The patch descriptor of the span script: `{id: doc._id, set, unset}`. -/
structure SpanPatch where
  id : Option Json
  set : List (String × Json)
  unset : List String

/-- The `key === '_type' && value === 'block'` test of the span reducer. -/
def blockKeyMatch (value : Json) (keyPath : List Seg) : Bool :=
  (match keyPath.getLast? with
    | some (Seg.key k) => k == "_type"
    | _ => false) &&
  (match value with
    | Json.str s => s == "block"
    | _ => false)

/-- The reducer of `createPatchesForDocument`: on a `_type: 'block'` node whose
parent has a truthy `spans`, migrate the spans and record `set` entries for
`children` and `markDefs` plus an `unset` of `spans`.  Reading `.spans` of an
`undefined` parent (the lodash empty-path quirk at depth 1) or of `null`
throws. -/
def spanBlockStep (h : Json → String) (doc : Json)
    (acc : Except JsErr (SpanPatch × KeyGenState)) (value : Json) (keyPath : List Seg) :
    Except JsErr (SpanPatch × KeyGenState) :=
  match acc with
  | Except.error e => Except.error e
  | Except.ok (patch, st) =>
    if blockKeyMatch value keyPath then
      let parentPath := keyPath.dropLast
      match lodashGet doc parentPath with
      | none => Except.error JsErr.typeError
      | some Json.null => Except.error JsErr.typeError
      | some Json.undef => Except.error JsErr.typeError
      | some parent =>
          match jsGetF parent "spans" with
          | none => Except.ok (patch, st)
          | some spans =>
              if !(truthy spans) then Except.ok (patch, st)
              else
                let childPath := serializePath001 (parentPath ++ [Seg.key "children"])
                let markDefsPath := serializePath001 (parentPath ++ [Seg.key "markDefs"])
                let spansPath := serializePath001 (parentPath ++ [Seg.key "spans"])
                match migrateSpans h spans st with
                | Except.error e => Except.error e
                | Except.ok (children, markDefs, st') =>
                    Except.ok (⟨patch.id,
                      assocSet (assocSet patch.set childPath (Json.arr children))
                        markDefsPath (Json.arr markDefs),
                      patch.unset ++ [spansPath]⟩, st')
    else Except.ok (patch, st)

/-- `createPatchesForDocument(doc)`: walk the document with the block reducer,
starting from `{id: doc._id, set: {}, unset: []}`. -/
def createPatchesForDocument (h : Json → String) (doc : Json) (st : KeyGenState) :
    Except JsErr (SpanPatch × KeyGenState) :=
  jsonReduce (spanBlockStep h doc) doc (Except.ok (⟨jsGetF doc "_id", [], []⟩, st))

/-- `generatePatchesForDocument` from the span script: `null` when the `unset`
list came out empty. -/
def generatePatchesForDocument001 (h : Json → String) (doc : Json) (st : KeyGenState) :
    Except JsErr (Option SpanPatch × KeyGenState) :=
  match createPatchesForDocument h doc st with
  | Except.error e => Except.error e
  | Except.ok (result, st') =>
      Except.ok ((if result.unset.length = 0 then none else some result), st')

/-! ### Runner outcome models

Each script's `run` pipeline is modelled from the point where the per-document
patch list has been computed: whether the operator is prompted, whether a
commit happens, and which terminal line is reported, as a function of the
patch list and the operator's answer. -/

/-- Which terminal outcome the runner reports. -/
inductive RunReport where
  | nothingToDo
  | cancelled
  | migrated
deriving Repr, DecidableEq

/-- Observable outcome of one run: the reported line, whether the operator was
prompted, and whether a commit was submitted. -/
structure RunModel where
  report : RunReport
  prompted : Bool
  committed : Bool
deriving Repr, DecidableEq

/-- The confirmation summary of the field-rename script: one document line plus
one line per set entry, per patch. -/
def confirmSummaryDate (patches : List SetPatch) : List String :=
  patches.foldl (fun summary patch =>
    (summary ++ ["️📃  On document: " ++ jsPropKey (jsGetF patch.document "_id")]) ++
      patch.set.map (fun kv => "    ✏  SET " ++ kv.1 ++ " = " ++ jsToStr kv.2)) []

/-- The field-rename script's `run` after transforming: `confirm` returns
`{continue: false}` without prompting when the summary is empty, and the run
then reports `Cancelled.`; otherwise the operator's answer decides between
commit and cancellation. -/
def runDate (patches : List SetPatch) (answer : Bool) : RunModel :=
  let summary := confirmSummaryDate patches
  if summary.length = 0 then ⟨RunReport.cancelled, false, false⟩
  else if answer then ⟨RunReport.migrated, true, true⟩
  else ⟨RunReport.cancelled, true, false⟩

/-- The draft-reference script's `run` after computing placeholders and set
patches: an empty set-patch list short-circuits to `Nothing to do.` without
prompting; otherwise the summary (always a string, never `null`) is shown and
the answer decides. -/
def runFixRefs (_placeholders : List Json) (setPatches : List SetPatch) (answer : Bool) :
    RunModel :=
  if setPatches.length = 0 then ⟨RunReport.nothingToDo, false, false⟩
  else if answer then ⟨RunReport.migrated, true, true⟩
  else ⟨RunReport.cancelled, true, false⟩

/-- The span script's `run` after transforming: `confirm` returns
`{noop: true}` without prompting on an empty patch list, reported as
`Nothing to do.`; otherwise the answer decides. -/
def runSpans (patches : List SpanPatch) (answer : Bool) : RunModel :=
  if patches.length = 0 then ⟨RunReport.nothingToDo, false, false⟩
  else if answer then ⟨RunReport.migrated, true, true⟩
  else ⟨RunReport.cancelled, true, false⟩

/-! ### The remote patch API's path grammar and `set` application

Modelled from the spec: the remote patch `set` operation (spec §4.3 and §6) —
a path expression is dot-joined identifiers with bracketed integer indices; a
`set` replaces the value at the path, leaving the document unchanged when the
path does not resolve.  This collaborator is external to the repository and is
needed only to state and check the round-trip property. -/

/-- Parser state for reading a path expression left to right. -/
inductive PState where
  | start
  | insideKey (buf : String)
  | insideIdx (val : Nat) (len : Nat)
  | afterClose
  | afterDot
deriving Repr, DecidableEq

/-- One character step of the path-expression reader; `none` is a parse
failure. -/
def parseStep (acc : Option (List Seg × PState)) (c : Char) : Option (List Seg × PState) :=
  match acc with
  | none => none
  | some (segs, st) =>
    match st with
    | PState.start =>
        if c = '[' then some (segs, PState.insideIdx 0 0)
        else if c = '.' || c = ']' then none
        else some (segs, PState.insideKey (String.singleton c))
    | PState.insideKey buf =>
        if c = '.' then some (segs ++ [Seg.key buf], PState.afterDot)
        else if c = '[' then some (segs ++ [Seg.key buf], PState.insideIdx 0 0)
        else if c = ']' then none
        else some (segs, PState.insideKey (buf.push c))
    | PState.insideIdx val len =>
        if c.isDigit then some (segs, PState.insideIdx (val * 10 + (c.toNat - 48)) (len + 1))
        else if c = ']' then
          if len = 0 then none else some (segs ++ [Seg.idx val], PState.afterClose)
        else none
    | PState.afterClose =>
        if c = '.' then some (segs, PState.afterDot)
        else if c = '[' then some (segs, PState.insideIdx 0 0)
        else none
    | PState.afterDot =>
        if c = '.' || c = '[' || c = ']' then none
        else some (segs, PState.insideKey (String.singleton c))

/-- Parse a path expression into a key path (`none` on failure). -/
def parsePathExpr (s : String) : Option (List Seg) :=
  match s.data.foldl parseStep (some ([], PState.start)) with
  | some (segs, PState.start) => some segs
  | some (segs, PState.insideKey buf) => some (segs ++ [Seg.key buf])
  | some (segs, PState.afterClose) => some segs
  | _ => none

mutual
/-- Replace the value at a (structured) key path; unresolved paths leave the
document unchanged. -/
def setAtPath : Json → List Seg → Json → Json
  | _, [], w => w
  | Json.obj fs, Seg.key k :: rest, w => Json.obj (setAtField fs k rest w)
  | Json.arr xs, Seg.idx i :: rest, w => Json.arr (setAtItem xs i rest w)
  | j, _ :: _, _ => j
/-- Replace within an object's fields at key `k`. -/
def setAtField : List (String × Json) → String → List Seg → Json → List (String × Json)
  | [], _, _, _ => []
  | (k', v) :: fs, k, rest, w =>
      if k' = k then (k', setAtPath v rest w) :: fs
      else (k', v) :: setAtField fs k rest w
/-- Replace within an array's items at index `i`. -/
def setAtItem : List Json → Nat → List Seg → Json → List Json
  | [], _, _, _ => []
  | x :: xs, 0, rest, w => setAtPath x rest w :: xs
  | x :: xs, i + 1, rest, w => x :: setAtItem xs i rest w
end

/-- Apply a list of `set` entries in order: parse each path expression and
replace the value there (ignoring unparsable paths). -/
def applySetEntries (doc : Json) (entries : List (String × Json)) : Json :=
  entries.foldl (fun d kv =>
    match parsePathExpr kv.1 with
    | some p => setAtPath d p kv.2
    | none => d) doc

mutual
/-- Structured-path lookup in the document tree (`[]` is the document
itself). -/
def nodeAt : Json → List Seg → Option Json
  | j, [] => some j
  | Json.obj fs, Seg.key k :: rest => nodeAtField fs k rest
  | Json.arr xs, Seg.idx i :: rest => nodeAtItem xs i rest
  | _, _ :: _ => none
/-- Lookup within an object's fields. -/
def nodeAtField : List (String × Json) → String → List Seg → Option Json
  | [], _, _ => none
  | (k', v) :: fs, k, rest => if k' = k then nodeAt v rest else nodeAtField fs k rest
/-- Lookup within an array's items. -/
def nodeAtItem : List Json → Nat → List Seg → Option Json
  | [], _, _ => none
  | x :: _, 0, rest => nodeAt x rest
  | _ :: xs, i + 1, rest => nodeAtItem xs i rest
end

/-- No duplicate keys in a list of keys. -/
def nodupKeys : List String → Bool
  | [] => true
  | k :: ks => !(ks.contains k) && nodupKeys ks

mutual
/-- Well-formedness of a document as parsed JSON: object keys are unique at
every level (JavaScript objects cannot carry duplicate keys). -/
def wfJson : Json → Bool
  | Json.obj fs => nodupKeys (fs.map Prod.fst) && wfFields fs
  | Json.arr xs => wfItems xs
  | _ => true
/-- Well-formedness of an object's field values. -/
def wfFields : List (String × Json) → Bool
  | [] => true
  | (_, v) :: fs => wfJson v && wfFields fs
/-- Well-formedness of an array's items. -/
def wfItems : List Json → Bool
  | [] => true
  | x :: xs => wfJson x && wfItems xs
end

/-! ### General helper lemmas -/

/-- Fold invariant: a property preserved by every step holds of the result. -/
theorem foldl_inv {α β : Type} (P : α → Prop) (step : α → β → α) (l : List β) (init : α)
    (h0 : P init) (hstep : ∀ a x, x ∈ l → P a → P (step a x)) : P (l.foldl step init) := by
  induction l generalizing init with
  | nil => exact h0
  | cons x xs ih =>
      refine ih _ (hstep init x (by simp) h0) ?_
      exact fun a y hy ha => hstep a y (by simp [hy]) ha

/-- Membership after an upsert: the pair was there before or is the new one. -/
theorem assocSet_mem {α : Type} (l : List (String × α)) (k : String) (v : α)
    (x : String × α) (hx : x ∈ assocSet l k v) : x ∈ l ∨ x = (k, v) := by
  induction l with
  | nil => simp [assocSet] at hx; simp [hx]
  | cons kv rest ih =>
      by_cases hk : kv.1 = k
      · rw [show kv = (kv.1, kv.2) from rfl] at hx
        simp only [assocSet, if_pos hk] at hx
        rcases List.mem_cons.mp hx with h | h
        · exact Or.inr h
        · exact Or.inl (List.mem_cons_of_mem _ h)
      · rw [show kv = (kv.1, kv.2) from rfl] at hx
        simp only [assocSet, if_neg hk] at hx
        rcases List.mem_cons.mp hx with h | h
        · exact Or.inl (by simp [h])
        · rcases ih h with h' | h'
          · exact Or.inl (List.mem_cons_of_mem _ h')
          · exact Or.inr h'

/-- Lookup after an upsert at the same key. -/
theorem assocGet_assocSet_same {α : Type} (l : List (String × α)) (k : String) (v : α) :
    assocGet (assocSet l k v) k = some v := by
  induction l with
  | nil => simp [assocSet, assocGet]
  | cons kv rest ih =>
      by_cases hk : kv.1 = k
      · rw [show kv = (kv.1, kv.2) from rfl]
        simp [assocSet, hk, assocGet]
      · rw [show kv = (kv.1, kv.2) from rfl]
        simp [assocSet, hk, assocGet, ih]

/-- Lookup after an upsert at a different key. -/
theorem assocGet_assocSet_other {α : Type} (l : List (String × α)) (k k' : String) (v : α)
    (hne : k' ≠ k) : assocGet (assocSet l k v) k' = assocGet l k' := by
  induction l with
  | nil => simp [assocSet, assocGet, if_neg (Ne.symm hne)]
  | cons kv rest ih =>
      by_cases hk : kv.1 = k
      · rw [show kv = (kv.1, kv.2) from rfl]
        simp [assocSet, hk, assocGet, if_neg (Ne.symm hne)]
      · rw [show kv = (kv.1, kv.2) from rfl]
        simp only [assocSet, if_neg hk, assocGet]
        by_cases h2 : kv.1 = k'
        · simp [h2]
        · simp [h2, ih]

/-! ### C8: the serialization examples -/

/-- C8: for both implementations of `serializePath`, the empty path serializes
to the empty string, `["a","b"]` to `"a.b"`, and `["a",0,"b"]` to `"a[0].b"`. -/
theorem c8_serializePath_examples :
    serializePath [] = "" ∧
    serializePath [Seg.key "a", Seg.key "b"] = "a.b" ∧
    serializePath [Seg.key "a", Seg.idx 0, Seg.key "b"] = "a[0].b" ∧
    serializePath001 [] = "" ∧
    serializePath001 [Seg.key "a", Seg.key "b"] = "a.b" ∧
    serializePath001 [Seg.key "a", Seg.idx 0, Seg.key "b"] = "a[0].b" :=
  ⟨rfl, rfl, rfl, rfl, rfl, rfl⟩

/-! ### C4: the pagination loop -/

/-- Peeling the first page off a flattened range of pages. -/
theorem range_map_flatten_succ {α : Type} (g : Nat → List α) (n : Nat) :
    ((List.range (n + 1)).map g).flatten =
      g 0 ++ ((List.range n).map (fun i => g (i + 1))).flatten := by
  rw [List.range_succ_eq_map]
  simp [List.map_map, Function.comp_def]

/-- The fetch loop at any starting offset: if page `n` (counted from the
starting offset in steps of 250) is the first empty page and the fuel covers
it, the loop returns the concatenation of pages `0..n` in fetch order. -/
theorem fetchAllDocumentsAux_pages (client : Nat → Nat → List Json) :
    ∀ (n fuel offset : Nat), n < fuel →
    client (offset + 250 * n) 250 = [] →
    (∀ i, i < n → client (offset + 250 * i) 250 ≠ []) →
    fetchAllDocumentsAux client fuel offset =
      some (((List.range (n + 1)).map (fun i => client (offset + 250 * i) 250)).flatten) := by
  intro n
  induction n with
  | zero =>
      intro fuel offset hfuel hempty _
      match fuel, hfuel with
      | fuel + 1, _ =>
        simp only [Nat.mul_zero, Nat.add_zero] at hempty
        simp [fetchAllDocumentsAux, hempty]
  | succ m ih =>
      intro fuel offset hfuel hempty hne
      match fuel, hfuel with
      | fuel + 1, hfuel =>
        have hbatch : client offset 250 ≠ [] := by
          have := hne 0 (Nat.succ_pos m)
          simpa using this
        have hlen : ¬(client offset 250).length = 0 := by
          simpa [List.length_eq_zero] using hbatch
        have hrec := ih fuel (offset + 250) (Nat.lt_of_succ_lt_succ hfuel)
          (by rw [show offset + 250 + 250 * m = offset + 250 * (m + 1) by ring]; exact hempty)
          (fun i hi => by
            rw [show offset + 250 + 250 * i = offset + 250 * (i + 1) by ring]
            exact hne (i + 1) (Nat.succ_lt_succ hi))
        have hfun : (fun i => client (offset + 250 + 250 * i) 250) =
            (fun i => client (offset + 250 * (i + 1)) 250) := by
          funext i
          congr 1
          ring
        rw [range_map_flatten_succ (fun i => client (offset + 250 * i) 250) (m + 1)]
        simp only [fetchAllDocumentsAux, if_neg hlen, hrec, hfun]
        simp

/-- C4 (amended): the fetcher reads the fixed windows `[0...250]`,
`[250...500]`, … in order and stops exactly when a page comes back with zero
items (not merely fewer than the page size); the result is the concatenation
of the pages in fetch order.  (The `order(_id)` clause lives in the remote
query string and is the server's concern.) -/
theorem c4_fetchAllDocuments_concat (client : Nat → Nat → List Json) (n fuel : Nat)
    (hfuel : n < fuel)
    (hempty : client (250 * n) 250 = [])
    (hne : ∀ i, i < n → client (250 * i) 250 ≠ []) :
    fetchAllDocuments client fuel =
      some (((List.range (n + 1)).map (fun i => client (250 * i) 250)).flatten) := by
  have := fetchAllDocumentsAux_pages client n fuel 0 hfuel (by simpa using hempty)
    (fun i hi => by simpa using hne i hi)
  simpa [fetchAllDocuments] using this

/-- A client whose first two pages are singletons: page `[0...250]` holds one
document, page `[250...500]` holds one more, everything after is empty. -/
def c4client : Nat → Nat → List Json := fun offset _ =>
  if offset = 0 then [Json.num 1] else if offset = 250 then [Json.num 2] else []

/-- C4 counterexample: on `c4client` the code keeps fetching after a page with
fewer than 250 items and returns both documents, while the claimed
stop-on-short-page rule would stop after the first page. -/
theorem c4_counterexample :
    fetchAllDocuments c4client 10 = some [Json.num 1, Json.num 2] ∧
    fetchAllDocumentsClaim c4client 10 = some [Json.num 1] ∧
    some [Json.num 1, Json.num 2] ≠ (some [Json.num 1] : Option (List Json)) := by
  refine ⟨rfl, rfl, ?_⟩
  intro h
  simp at h

/-- C4 witness: the characterization applied to `c4client`, whose third page
(offset 500) is the first empty one. -/
theorem c4_witness :
    fetchAllDocuments c4client 10 =
      some (((List.range 3).map (fun i => c4client (250 * i) 250)).flatten) := by
  refine c4_fetchAllDocuments_concat c4client 2 10 (by decide) (by rfl) ?_
  intro i hi
  interval_cases i <;> simp [c4client]

/-! ### C3: the empty-patch-list outcome in each runner variant -/

/-- C3 counterexample: in the field-rename script an empty patch list is
reported as `Cancelled.`, not as a nothing-to-do outcome (though the operator
is indeed not prompted and nothing is committed). -/
theorem c3_counterexample :
    runDate [] true = ⟨RunReport.cancelled, false, false⟩ ∧
    RunReport.cancelled ≠ RunReport.nothingToDo :=
  ⟨rfl, by decide⟩

/-- C3 (amended): with an empty patch list every variant short-circuits —
no prompt and no commit; the draft-reference and span variants report
`Nothing to do.`, while the field-rename variant reports `Cancelled.`. -/
theorem c3_empty_patches (answer : Bool) (placeholders : List Json) :
    runDate [] answer = ⟨RunReport.cancelled, false, false⟩ ∧
    runFixRefs placeholders [] answer = ⟨RunReport.nothingToDo, false, false⟩ ∧
    runSpans [] answer = ⟨RunReport.nothingToDo, false, false⟩ :=
  ⟨rfl, rfl, rfl⟩

/-! ### C2: the keys recorded by the field-rename transform -/

/-- The match predicate of the field-rename reducer: last key segment `_type`,
value the string `date`. -/
def dateMatch (value : Json) (path : List Seg) : Bool :=
  (match path.getLast? with
    | some (Seg.key k) => k == "_type"
    | _ => false) &&
  (match value with
    | Json.str s => s == "date"
    | _ => false)

/-- The reducer in terms of the match predicate. -/
theorem datePatchStep_eq (acc : List (String × Json)) (value : Json) (path : List Seg) :
    datePatchStep acc value path =
      if dateMatch value path then assocSet acc (joinDot path) (Json.str "richDate") else acc :=
  rfl

/-- Every entry of the accumulated patch object keys a matched node's
dot-joined path. -/
theorem datePatches_keys (doc : Json) (k : String) (v : Json)
    (hk : (k, v) ∈ jsonReduce datePatchStep doc []) :
    ∃ p value, (p, value) ∈ jsonNodes doc [] ∧ dateMatch value p = true ∧
      k = joinDot p ∧ v = Json.str "richDate" := by
  refine foldl_inv (fun acc => (k, v) ∈ acc →
      ∃ p value, (p, value) ∈ jsonNodes doc [] ∧ dateMatch value p = true ∧
        k = joinDot p ∧ v = Json.str "richDate") _ (jsonNodes doc []) [] (by simp) ?_ hk
  intro a x hx ha hmem
  rw [datePatchStep_eq] at hmem
  by_cases hm : dateMatch x.2 x.1
  · rw [if_pos hm] at hmem
    rcases assocSet_mem a (joinDot x.1) (Json.str "richDate") (k, v) hmem with h | h
    · exact ha h
    · refine ⟨x.1, x.2, by simpa using hx, hm, ?_, ?_⟩
      · exact congrArg Prod.fst h
      · exact congrArg Prod.snd h
  · rw [if_neg hm] at hmem
    exact ha hmem

/-- C2 (amended): every key of the field-rename transform's set mapping is the
matched node's key path rendered by `path.join('.')` — all segments dot-joined,
integer segments as bare decimal numbers, with no leading separator (not the
bracketed-index path-expression grammar). -/
theorem c2_date_set_keys (doc : Json) (patch : SetPatch) (k : String) (v : Json)
    (hdoc : generatePatchesForDocument doc = some patch)
    (hk : (k, v) ∈ patch.set) :
    ∃ p value, (p, value) ∈ jsonNodes doc [] ∧ dateMatch value p = true ∧
      k = joinDot p ∧ v = Json.str "richDate" := by
  have hset : patch.set = jsonReduce datePatchStep doc [] := by
    simp only [generatePatchesForDocument] at hdoc
    split at hdoc
    · exact absurd hdoc (by simp)
    · cases hdoc
      rfl
  exact datePatches_keys doc k v (hset ▸ hk)

/-- The document refuting the claimed bracket serialization: a `date`-typed
node inside an array. -/
def c2doc : Json := Json.obj [("a", Json.arr [Json.obj [("_type", Json.str "date")]])]

/-- C2 counterexample: on `c2doc` the recorded key is `"a.0._type"`, while the
path-expression grammar of the claim renders the same path as `"a[0]._type"`. -/
theorem c2_counterexample :
    generatePatchesForDocument c2doc =
      some ⟨c2doc, [("a.0._type", Json.str "richDate")]⟩ ∧
    serializePath [Seg.key "a", Seg.idx 0, Seg.key "_type"] = "a[0]._type" ∧
    "a.0._type" ≠ "a[0]._type" :=
  ⟨rfl, rfl, by decide⟩

/-- C2 witness: the key characterization applied to `c2doc` and its one
entry. -/
theorem c2_witness :
    ∃ p value, (p, value) ∈ jsonNodes c2doc [] ∧ dateMatch value p = true ∧
      "a.0._type" = joinDot p ∧ Json.str "richDate" = Json.str "richDate" :=
  c2_date_set_keys c2doc ⟨c2doc, [("a.0._type", Json.str "richDate")]⟩
    "a.0._type" (Json.str "richDate") rfl (by simp)

/-! ### C10: `null` anywhere makes the reference repair throw -/

/-- Folding the bad-reference step from an error stays at that error. -/
theorem badRefStep_foldl_error (l : List (List Seg × Json)) (e : JsErr) :
    l.foldl (fun acc pv => badRefStep acc pv.2 pv.1) (Except.error e) = Except.error e := by
  refine foldl_inv (fun acc => acc = Except.error e) _ l _ rfl ?_
  intro a x _ ha
  rw [ha]
  rfl

/-- C10: for every document containing the JSON value `null` at some position,
`getBadRefsForDocument` throws a `TypeError` (the `typeof value === 'object'`
guard admits `null`, and `value._ref` is then read from `null`) instead of
returning a result or `null`. -/
theorem c10_null_throws (doc : Json) (p : List Seg)
    (hp : (p, Json.null) ∈ jsonNodes doc []) :
    getBadRefsForDocument doc = Except.error JsErr.typeError := by
  obtain ⟨l1, l2, hsplit⟩ := List.append_of_mem hp
  have : jsonReduce badRefStep doc (Except.ok []) = Except.error JsErr.typeError := by
    rw [jsonReduce, hsplit, List.foldl_append]
    have hmid : ∀ acc : Except JsErr (List BadRef),
        badRefStep acc Json.null p = Except.error JsErr.typeError := by
      intro acc
      match acc with
      | Except.error JsErr.typeError => rfl
      | Except.ok l => rfl
    rw [List.foldl_cons]
    conv_lhs => rw [show ((p, Json.null).2 : Json) = Json.null from rfl,
                  show ((p, Json.null).1 : List Seg) = p from rfl]
    rw [hmid]
    exact badRefStep_foldl_error l2 JsErr.typeError
  rw [getBadRefsForDocument, this]

/-- C10 witness: the throw on the concrete document `{a: null}`. -/
theorem c10_witness :
    getBadRefsForDocument (Json.obj [("a", Json.null)]) = Except.error JsErr.typeError :=
  c10_null_throws (Json.obj [("a", Json.null)]) [Seg.key "a"]
    (List.mem_cons_of_mem _ (List.mem_cons_self _ _))

/-! ### C9: unmatched documents and the no-op result -/

/-- The match predicate of the reference-repair reducer: an object carrying a
truthy `_ref` that is a draft id, without a truthy `_weak`. -/
def refMatch (value : Json) : Bool :=
  match jsGetF value "_ref" with
  | some (Json.str r) =>
      truthy (Json.str r) && !(truthyOpt (jsGetF value "_weak")) && isDraftId r
  | _ => false

/-- On a non-matching node the reference-repair step either keeps the
accumulator or throws; it never records an entry. -/
theorem badRefStep_no_match (l : List BadRef) (v : Json) (p : List Seg)
    (hm : refMatch v = false) :
    badRefStep (Except.ok l) v p = Except.ok l ∨
    badRefStep (Except.ok l) v p = Except.error JsErr.typeError := by
  cases v with
  | null => exact Or.inr rfl
  | undef => exact Or.inl rfl
  | bool b => exact Or.inl rfl
  | num n => exact Or.inl rfl
  | str s => exact Or.inl rfl
  | arr items => exact Or.inl rfl
  | obj fields =>
      simp only [refMatch, jsGetF] at hm
      simp only [badRefStep, isObjectTypeof, jsGetF, Bool.not_true]
      rcases hr : assocGet fields "_ref" with _ | rv
      · exact Or.inl rfl
      · rw [hr] at hm
        by_cases ht : truthy rv
        · by_cases hw : truthyOpt (assocGet fields "_weak")
          · simp [ht, hw]
          · cases rv with
            | str r =>
                have hd : isDraftId r = false := by
                  simp only [ht, hw] at hm
                  simpa using hm
                simp [ht, hw, hd]
            | null => exact absurd ht (by decide)
            | undef => exact absurd ht (by decide)
            | bool b => simp [ht, hw]
            | num n => simp [ht, hw]
            | arr items => simp [ht, hw]
            | obj fs => simp [ht, hw]
        · simp [ht]

/-- C9 counterexample: the document `{a: null}` matches no transform
predicate, yet the reference-repair transform throws instead of returning
`null`. -/
theorem c9_counterexample :
    (∀ pv ∈ jsonNodes (Json.obj [("a", Json.null)]) [], refMatch pv.2 = false) ∧
    getBadRefsForDocument (Json.obj [("a", Json.null)]) = Except.error JsErr.typeError ∧
    Except.error JsErr.typeError ≠ (Except.ok none : Except JsErr (Option DocBadRefs)) := by
  refine ⟨by decide, rfl, ?_⟩
  intro h
  exact Except.noConfusion h

/-- The match predicate of the span-migration reducer: a `'block'`-valued
`_type` whose parent (under lodash `get`) resolves to a value with a truthy
`spans` property. -/
def blockMatch (doc : Json) (value : Json) (keyPath : List Seg) : Bool :=
  blockKeyMatch value keyPath &&
  (match lodashGet doc keyPath.dropLast with
    | some (Json.obj fields) => truthyOpt (assocGet fields "spans")
    | _ => false)

/-- On a non-matching node the span-migration step either keeps the
accumulator or throws; it never records a patch entry. -/
theorem spanBlockStep_no_match (h : Json → String) (doc : Json) (patch : SpanPatch)
    (st : KeyGenState) (v : Json) (p : List Seg) (hm : blockMatch doc v p = false) :
    spanBlockStep h doc (Except.ok (patch, st)) v p = Except.ok (patch, st) ∨
    spanBlockStep h doc (Except.ok (patch, st)) v p = Except.error JsErr.typeError := by
  simp only [blockMatch] at hm
  simp only [spanBlockStep]
  by_cases hkv : blockKeyMatch v p
  · rw [hkv] at hm
    simp only [Bool.true_and] at hm
    rw [if_pos hkv]
    rcases hpar : lodashGet doc p.dropLast with _ | parent
    · exact Or.inr rfl
    · rw [hpar] at hm
      cases parent with
      | null => exact Or.inr rfl
      | undef => exact Or.inr rfl
      | bool b => exact Or.inl rfl
      | num n => exact Or.inl rfl
      | str s => exact Or.inl rfl
      | arr items => exact Or.inl rfl
      | obj fields =>
          simp only [jsGetF]
          simp only at hm
          rcases hsp : assocGet fields "spans" with _ | spans
          · exact Or.inl rfl
          · rw [hsp] at hm
            simp only [truthyOpt] at hm
            simp [hm]
  · rw [if_neg hkv]
    exact Or.inl rfl

/-- C9 (amended): an unmatched document yields the no-op `null` result in all
three transforms, provided the transform returns at all — the field-rename
transform always returns, while the reference-repair and span transforms can
instead throw on unmatched documents (for example on a document containing
`null`, or on a top-level `'block'` `_type`). -/
theorem c9_unmatched_noop :
    (∀ doc : Json, (∀ pv ∈ jsonNodes doc [], dateMatch pv.2 pv.1 = false) →
      generatePatchesForDocument doc = none) ∧
    (∀ (doc : Json) (r : Option DocBadRefs), getBadRefsForDocument doc = Except.ok r →
      (∀ pv ∈ jsonNodes doc [], refMatch pv.2 = false) → r = none) ∧
    (∀ (h : Json → String) (doc : Json) (st : KeyGenState)
      (out : Option SpanPatch × KeyGenState),
      generatePatchesForDocument001 h doc st = Except.ok out →
      (∀ pv ∈ jsonNodes doc [], blockMatch doc pv.2 pv.1 = false) → out.1 = none) := by
  refine ⟨?_, ?_, ?_⟩
  · intro doc hno
    have hempty : jsonReduce datePatchStep doc [] = [] := by
      refine foldl_inv (fun acc => acc = []) _ (jsonNodes doc []) [] rfl ?_
      intro a x hx ha
      rw [datePatchStep_eq, if_neg (by simp [hno x hx]), ha]
    simp [generatePatchesForDocument, hempty]
  · intro doc r hr hno
    have hinv : jsonReduce badRefStep doc (Except.ok []) = Except.ok [] ∨
        jsonReduce badRefStep doc (Except.ok []) = Except.error JsErr.typeError := by
      refine foldl_inv (fun acc => acc = Except.ok [] ∨ acc = Except.error JsErr.typeError)
        _ (jsonNodes doc []) _ (Or.inl rfl) ?_
      intro a x hx ha
      rcases ha with ha | ha
      · rw [ha]
        exact badRefStep_no_match [] x.2 x.1 (hno x hx)
      · rw [ha]
        exact Or.inr rfl
    rw [getBadRefsForDocument] at hr
    rcases hinv with hinv | hinv
    · rw [hinv] at hr
      simpa using hr.symm
    · rw [hinv] at hr
      exact Except.noConfusion hr
  · intro h doc st out hout hno
    have hinv : jsonReduce (spanBlockStep h doc) doc
          (Except.ok ((⟨jsGetF doc "_id", [], []⟩ : SpanPatch), st)) =
          Except.ok ((⟨jsGetF doc "_id", [], []⟩ : SpanPatch), st) ∨
        jsonReduce (spanBlockStep h doc) doc
          (Except.ok ((⟨jsGetF doc "_id", [], []⟩ : SpanPatch), st)) =
          Except.error JsErr.typeError := by
      refine foldl_inv
        (fun acc => acc = Except.ok ((⟨jsGetF doc "_id", [], []⟩ : SpanPatch), st) ∨
          acc = Except.error JsErr.typeError) _ (jsonNodes doc []) _ (Or.inl rfl) ?_
      intro a x hx ha
      rcases ha with ha | ha
      · rw [ha]
        exact spanBlockStep_no_match h doc _ st x.2 x.1 (hno x hx)
      · rw [ha]
        exact Or.inr rfl
    rw [generatePatchesForDocument001, createPatchesForDocument] at hout
    rcases hinv with hinv | hinv
    · rw [hinv] at hout
      simp only at hout
      cases hout
      rfl
    · rw [hinv] at hout
      exact Except.noConfusion hout

/-- C9 witness: the three no-op conclusions on the concrete document
`{x: 1}`. -/
theorem c9_witness :
    generatePatchesForDocument (Json.obj [("x", Json.num 1)]) = none ∧
    (none : Option DocBadRefs) = none ∧
    ((none : Option SpanPatch), initialKeyGenState).1 = none := by
  refine ⟨c9_unmatched_noop.1 (Json.obj [("x", Json.num 1)]) (by decide), ?_, ?_⟩
  · exact c9_unmatched_noop.2.1 (Json.obj [("x", Json.num 1)]) none rfl (by decide)
  · exact c9_unmatched_noop.2.2 (fun _ => "") (Json.obj [("x", Json.num 1)])
      initialKeyGenState (none, initialKeyGenState) rfl (by decide)

/-! ### C7: uniqueness of generated keys within one run -/

/-- The fuel-based digit computation decodes back to its input. -/
theorem natDigitsAux_val (fuel : Nat) :
    ∀ n : Nat, n ≤ fuel →
    (natDigitsAux fuel n).foldr (fun d acc => d + 10 * acc) 0 = n := by
  induction fuel with
  | zero =>
      intro n h
      interval_cases n
      simp [natDigitsAux]
  | succ f ih =>
      intro n h
      by_cases hn : n = 0
      · simp [natDigitsAux, hn]
      · have hlt : n / 10 ≤ f := by
          have := Nat.div_lt_self (Nat.pos_of_ne_zero hn) (by norm_num : 1 < 10)
          omega
        simp only [natDigitsAux, hn, if_false, List.foldr_cons]
        rw [ih (n / 10) hlt]
        omega

/-- Every produced digit is below 10. -/
theorem natDigitsAux_lt (fuel : Nat) : ∀ n : Nat, ∀ d ∈ natDigitsAux fuel n, d < 10 := by
  induction fuel with
  | zero => simp [natDigitsAux]
  | succ f ih =>
      intro n d hd
      by_cases hn : n = 0
      · simp [natDigitsAux, hn] at hd
      · simp only [natDigitsAux, hn, if_false, List.mem_cons] at hd
        rcases hd with h | h
        · subst h
          exact Nat.mod_lt _ (by norm_num)
        · exact ih (n / 10) d h

/-- `Nat.digitChar` is injective below 10. -/
theorem digitChar_inj (a b : Nat) (ha : a < 10) (hb : b < 10)
    (h : Nat.digitChar a = Nat.digitChar b) : a = b := by
  interval_cases a <;> interval_cases b <;> simp_all [Nat.digitChar]

/-- Mapping `digitChar` over digit lists is injective. -/
theorem mapDigitChar_inj : ∀ l1 l2 : List Nat, (∀ d ∈ l1, d < 10) → (∀ d ∈ l2, d < 10) →
    l1.map Nat.digitChar = l2.map Nat.digitChar → l1 = l2 := by
  intro l1
  induction l1 with
  | nil =>
      intro l2 _ _ h
      cases l2 with
      | nil => rfl
      | cons x xs => simp at h
  | cons x xs ih =>
      intro l2 h1 h2 h
      cases l2 with
      | nil => simp at h
      | cons y ys =>
          simp only [List.map_cons, List.cons.injEq] at h
          have hx := digitChar_inj x y (h1 x (by simp)) (h2 y (by simp)) h.1
          have := ih ys (fun d hd => h1 d (by simp [hd])) (fun d hd => h2 d (by simp [hd])) h.2
          simp [hx, this]

/-- The digits of a positive number form a non-empty list. -/
theorem natDigits_ne_nil (n : Nat) (hn : n ≠ 0) : natDigits n ≠ [] := by
  rcases n with _ | m
  · exact absurd rfl hn
  · simp [natDigits, natDigitsAux]

/-- The decimal rendering of a positive number is non-empty. -/
theorem natRepr_len_pos (n : Nat) (hn : 1 ≤ n) : 1 ≤ (natRepr n).length := by
  have h0 : n ≠ 0 := by omega
  have hne := natDigits_ne_nil n h0
  simp only [natRepr, if_neg h0]
  have hpos : 0 < (natDigits n).length := List.length_pos.mpr hne
  rw [show (((natDigits n).reverse.map Nat.digitChar).asString).length
      = ((natDigits n).reverse.map Nat.digitChar).length from rfl]
  simp only [List.length_map, List.length_reverse]
  omega

/-- `natRepr` is injective on positive numbers. -/
theorem natRepr_pos_inj (m n : Nat) (hm : 1 ≤ m) (hn : 1 ≤ n)
    (h : natRepr m = natRepr n) : m = n := by
  have hm0 : m ≠ 0 := by omega
  have hn0 : n ≠ 0 := by omega
  simp only [natRepr, if_neg hm0, if_neg hn0] at h
  have hdata := congrArg String.data h
  rw [show ((natDigits m).reverse.map Nat.digitChar).asString.data
      = (natDigits m).reverse.map Nat.digitChar from rfl,
    show ((natDigits n).reverse.map Nat.digitChar).asString.data
      = (natDigits n).reverse.map Nat.digitChar from rfl] at hdata
  have hrev := mapDigitChar_inj _ _
    (fun d hd => natDigitsAux_lt m m d (by simpa using hd))
    (fun d hd => natDigitsAux_lt n n d (by simpa using hd)) hdata
  have hdig : natDigits m = natDigits n := by
    simpa using congrArg List.reverse hrev
  have hv1 := natDigitsAux_val m m (Nat.le_refl m)
  have hv2 := natDigitsAux_val n n (Nat.le_refl n)
  rw [show natDigitsAux m m = natDigits m from rfl] at hv1
  rw [show natDigitsAux n n = natDigits n from rfl] at hv2
  rw [hdig] at hv1
  omega

/-- Cancellation for string concatenation when the left parts have equal
length. -/
theorem strAppend_inj (a b a' b' : String) (hlen : a.length = a'.length)
    (h : a ++ b = a' ++ b') : a = a' ∧ b = b' := by
  have hd := congrArg String.data h
  simp only [String.data_append] at hd
  have hinj := List.append_inj hd hlen
  constructor
  · cases a
    cases a'
    simpa using congrArg String.mk hinj.1
  · cases b
    cases b'
    simpa using congrArg String.mk hinj.2

/-- Run `generateKey` over a list of items in order, collecting the keys. -/
def runGenerateKeys (h : Json → String) : List Json → KeyGenState → List String × KeyGenState
  | [], st => ([], st)
  | x :: xs, st =>
      let gen := generateKey h x st
      let rest := runGenerateKeys h xs gen.2
      (gen.1 :: rest.1, rest.2)

/-- The run invariant for key generation with an 8-character hash: keys are
pairwise distinct; 8-character keys are recorded in `keysSeen`; every key is
either 8 characters or a recorded base followed by a positive tie-breaker at
most the counter; and everything in `keysSeen` is 8 characters. -/
def KeyRunInv (ks : List String) (st : KeyGenState) : Prop :=
  ks.Nodup ∧
  (∀ k ∈ ks, k.length = 8 → k ∈ st.keysSeen) ∧
  (∀ k ∈ ks, k.length = 8 ∨
    ∃ b t, k = b ++ natRepr t ∧ b.length = 8 ∧ 1 ≤ t ∧ t ≤ st.tieBreaker) ∧
  (∀ s ∈ st.keysSeen, s.length = 8)

/-- One `generateKey` call preserves the run invariant and appends a fresh
key. -/
theorem generateKey_step_inv (h : Json → String) (hlen : ∀ x, (h x).length = 8)
    (x : Json) (ks : List String) (st : KeyGenState) (hinv : KeyRunInv ks st) :
    KeyRunInv (ks ++ [(generateKey h x st).1]) (generateKey h x st).2 := by
  obtain ⟨hnd, hseen, hshape, hslen⟩ := hinv
  have hbase_len : (h x).length = 8 := hlen x
  by_cases hc : st.keysSeen.contains (h x)
  · have hbase_seen : h x ∈ st.keysSeen := List.elem_iff.mp hc
    simp only [generateKey, if_pos hc]
    have hkpos : 1 ≤ (natRepr (st.tieBreaker + 1)).length :=
      natRepr_len_pos _ (by omega)
    have hklen : ((h x) ++ natRepr (st.tieBreaker + 1)).length
        = 8 + (natRepr (st.tieBreaker + 1)).length := by
      simp [String.length_append, hbase_len]
    refine ⟨?_, ?_, ?_, ?_⟩
    · rw [List.nodup_append]
      refine ⟨hnd, List.nodup_singleton _, ?_⟩
      intro a ha ha1
      simp only [List.mem_singleton] at ha1
      rcases hshape a ha with h8 | ⟨b, t, hbt, hb8, ht1, htle⟩
      · rw [ha1, hklen] at h8
        omega
      · rw [ha1] at hbt
        obtain ⟨_, hrt⟩ := strAppend_inj (h x) (natRepr (st.tieBreaker + 1))
          b (natRepr t) (by omega) hbt
        have := natRepr_pos_inj (st.tieBreaker + 1) t (by omega) ht1 hrt
        omega
    · intro k hk hk8
      rcases List.mem_append.mp hk with hk' | hk'
      · exact hseen k hk' hk8
      · simp only [List.mem_singleton] at hk'
        rw [hk', hklen] at hk8
        omega
    · intro k hk
      rcases List.mem_append.mp hk with hk' | hk'
      · rcases hshape k hk' with h8 | ⟨b, t, hbt, hb8, ht1, htle⟩
        · exact Or.inl h8
        · exact Or.inr ⟨b, t, hbt, hb8, ht1, by simp only; omega⟩
      · simp only [List.mem_singleton] at hk'
        exact Or.inr ⟨h x, st.tieBreaker + 1, hk', hbase_len, by omega, by simp⟩
    · exact hslen
  · simp only [generateKey, if_neg hc]
    refine ⟨?_, ?_, ?_, ?_⟩
    · rw [List.nodup_append]
      refine ⟨hnd, List.nodup_singleton _, ?_⟩
      intro a ha ha1
      simp only [List.mem_singleton] at ha1
      rcases hshape a ha with h8 | ⟨b, t, hbt, hb8, ht1, htle⟩
      · have : a ∈ st.keysSeen := hseen a ha h8
        rw [ha1] at this
        exact hc (List.elem_iff.mpr this)
      · have hpos : 1 ≤ (natRepr t).length := natRepr_len_pos t ht1
        have : a.length = 8 + (natRepr t).length := by
          rw [hbt]
          simp [String.length_append, hb8]
        rw [ha1, hbase_len] at this
        omega
    · intro k hk _
      rcases List.mem_append.mp hk with hk' | hk'
      · exact List.mem_cons_of_mem _ (hseen k hk' (by assumption))
      · simp only [List.mem_singleton] at hk'
        rw [hk']
        exact List.mem_cons_self _ _
    · intro k hk
      rcases List.mem_append.mp hk with hk' | hk'
      · exact hshape k hk'
      · simp only [List.mem_singleton] at hk'
        rw [hk']
        exact Or.inl hbase_len
    · intro a ha
      rcases List.mem_cons.mp ha with ha' | ha'
      · rw [ha']
        exact hbase_len
      · exact hslen a ha'

/-- Running `generateKey` over any item list preserves the run invariant. -/
theorem runGenerateKeys_inv (h : Json → String) (hlen : ∀ x, (h x).length = 8) :
    ∀ (items : List Json) (ks : List String) (st : KeyGenState), KeyRunInv ks st →
    KeyRunInv (ks ++ (runGenerateKeys h items st).1) (runGenerateKeys h items st).2 := by
  intro items
  induction items with
  | nil =>
      intro ks st hinv
      simpa [runGenerateKeys] using hinv
  | cons x xs ih =>
      intro ks st hinv
      have h1 := generateKey_step_inv h hlen x ks st hinv
      have h2 := ih (ks ++ [(generateKey h x st).1]) (generateKey h x st).2 h1
      simp only [runGenerateKeys]
      simpa [List.append_assoc] using h2

/-- C7: with the 8-character content hash, every key returned by `generateKey`
within one run is distinct from every earlier key of that run; and two items
whose hashes coincide receive the keys `<hash>` and `<hash>1`, in first-seen
order. -/
theorem c7_generateKey_unique (h : Json → String) (hlen : ∀ x, (h x).length = 8) :
    (∀ items : List Json, ((runGenerateKeys h items initialKeyGenState).1).Nodup) ∧
    (∀ x y : Json, h x = h y →
      runGenerateKeys h [x, y] initialKeyGenState =
        ([h x, h x ++ "1"], ⟨[h x], 1⟩)) := by
  constructor
  · intro items
    have h0 : KeyRunInv [] initialKeyGenState := by
      refine ⟨List.nodup_nil, ?_, ?_, ?_⟩ <;> simp [initialKeyGenState]
    have := (runGenerateKeys_inv h hlen items [] initialKeyGenState h0).1
    simpa using this
  · intro x y hxy
    have hfirst : generateKey h x initialKeyGenState = (h x, ⟨[h x], 0⟩) := by
      simp [generateKey, initialKeyGenState]
    have hsecond : generateKey h y (⟨[h x], 0⟩ : KeyGenState) =
        (h x ++ "1", ⟨[h x], 1⟩) := by
      simp only [generateKey]
      rw [← hxy]
      rw [if_pos (by simp [List.contains])]
      rw [show natRepr (0 + 1) = "1" from rfl]
    simp only [runGenerateKeys, hfirst, hsecond]

/-- C7 witness: the constant hash `"aaaaaaaa"` on two items — distinct keys,
and the collision pair `("aaaaaaaa", "aaaaaaaa1")`. -/
theorem c7_witness :
    ((runGenerateKeys (fun _ => "aaaaaaaa") [Json.num 1, Json.num 2]
      initialKeyGenState).1).Nodup ∧
    runGenerateKeys (fun _ => "aaaaaaaa") [Json.num 1, Json.num 2] initialKeyGenState =
      (["aaaaaaaa", "aaaaaaaa" ++ "1"], ⟨["aaaaaaaa"], 1⟩) := by
  have hlen : ∀ x : Json, ((fun _ => "aaaaaaaa") x).length = 8 := fun _ => rfl
  exact ⟨(c7_generateKey_unique _ hlen).1 [Json.num 1, Json.num 2],
    (c7_generateKey_unique _ hlen).2 (Json.num 1) (Json.num 2) rfl⟩

/-! ### C5: the span-migration scenario -/

/-- The custom mark object `{foo: 1}` of the scenario. -/
def spanMark : Json := Json.obj [("foo", Json.num 1)]

/-- The scenario span `{_type:'span', text:'hi', marks:[], customMark:{foo:1}}`. -/
def spanHi : Json := Json.obj [("_type", Json.str "span"), ("text", Json.str "hi"),
  ("marks", Json.arr []), ("customMark", spanMark)]

/-- The same span with an empty `customMark`. -/
def spanHiEmpty : Json := Json.obj [("_type", Json.str "span"), ("text", Json.str "hi"),
  ("marks", Json.arr []), ("customMark", Json.obj [])]

/-- The child built from `spanHi` before the `_key` assignment, given the mark
key. -/
def spanHiChildBare (k1 : String) : Json :=
  Json.obj [("marks", Json.arr [Json.str k1]), ("_type", Json.str "span"),
    ("text", Json.str "hi")]

/-- The child built from `spanHiEmpty` before the `_key` assignment. -/
def spanHiEmptyChildBare : Json :=
  Json.obj [("marks", Json.arr []), ("_type", Json.str "span"), ("text", Json.str "hi")]

/-- C5 (amended): on the scenario span the migration produces the mark
definition `{foo:1, _type:'customMark', _key:<hash of the mark>}` exactly as
claimed, but the child carries, besides `_type`, `text` and the rewritten
`marks`, a generated `_key` as well (the hash of the still keyless child);
with an empty `customMark` no mark definition is produced and no mark key
appears, while the child still receives a generated `_key`. -/
theorem c5_migrateSpans (h : Json → String)
    (hne : h (spanHiChildBare (h spanMark)) ≠ h spanMark) :
    migrateSpans h (Json.arr [spanHi]) initialKeyGenState =
      Except.ok ([Json.obj [("marks", Json.arr [Json.str (h spanMark)]),
        ("_type", Json.str "span"), ("text", Json.str "hi"),
        ("_key", Json.str (h (spanHiChildBare (h spanMark))))]],
        [Json.obj [("foo", Json.num 1), ("_type", Json.str "customMark"),
          ("_key", Json.str (h spanMark))]],
        ⟨[h (spanHiChildBare (h spanMark)), h spanMark], 0⟩) ∧
    migrateSpans h (Json.arr [spanHiEmpty]) initialKeyGenState =
      Except.ok ([Json.obj [("marks", Json.arr []), ("_type", Json.str "span"),
        ("text", Json.str "hi"), ("_key", Json.str (h spanHiEmptyChildBare))]],
        [], ⟨[h spanHiEmptyChildBare], 0⟩) := by
  constructor
  · have e1 : processSpans h [spanHi] [] initialKeyGenState =
        Except.ok ([spanHiChildBare (h spanMark)],
          [Json.obj [("foo", Json.num 1), ("_type", Json.str "customMark"),
            ("_key", Json.str (h spanMark))]],
          ⟨[h spanMark], 0⟩) := rfl
    have hcontains : (([h spanMark] : List String).contains
        (h (spanHiChildBare (h spanMark)))) = false := by
      simp only [List.contains_cons, List.contains_nil, Bool.or_false]
      exact beq_eq_false_iff_ne.mpr hne
    have e2 : addChildKeys h [spanHiChildBare (h spanMark)]
        (⟨[h spanMark], 0⟩ : KeyGenState) =
        ([Json.obj [("marks", Json.arr [Json.str (h spanMark)]),
          ("_type", Json.str "span"), ("text", Json.str "hi"),
          ("_key", Json.str (h (spanHiChildBare (h spanMark))))]],
          ⟨[h (spanHiChildBare (h spanMark)), h spanMark], 0⟩) := by
      simp only [addChildKeys, generateKey, hcontains]
      rfl
    simp only [migrateSpans, e1, e2]
  · rfl

/-- The concrete hash oracle of the counterexample: `{foo: ...}` objects hash
to `"11111111"`, everything else to `"22222222"`. -/
def hC5 : Json → String := fun j =>
  match j with
  | Json.obj (("foo", _) :: _) => "11111111"
  | _ => "22222222"

/-- The child object exactly as the claim states it (no `_key`). -/
def claimChildC5 : Json := Json.obj [("_type", Json.str "span"),
  ("text", Json.str "hi"), ("marks", Json.arr [Json.str "11111111"])]

/-- C5 counterexample: under the hash oracle `hC5` the produced child carries
a `_key` field, so it is not the claimed child `{_type, text, marks}`. -/
theorem c5_counterexample :
    migrateSpans hC5 (Json.arr [spanHi]) initialKeyGenState =
      Except.ok ([Json.obj [("marks", Json.arr [Json.str "11111111"]),
        ("_type", Json.str "span"), ("text", Json.str "hi"),
        ("_key", Json.str "22222222")]],
        [Json.obj [("foo", Json.num 1), ("_type", Json.str "customMark"),
          ("_key", Json.str "11111111")]],
        ⟨["22222222", "11111111"], 0⟩) ∧
    jsGetF (Json.obj [("marks", Json.arr [Json.str "11111111"]),
      ("_type", Json.str "span"), ("text", Json.str "hi"),
      ("_key", Json.str "22222222")]) "_key" = some (Json.str "22222222") ∧
    jsGetF claimChildC5 "_key" = none ∧
    Json.obj [("marks", Json.arr [Json.str "11111111"]), ("_type", Json.str "span"),
      ("text", Json.str "hi"), ("_key", Json.str "22222222")] ≠ claimChildC5 := by
  refine ⟨rfl, rfl, rfl, ?_⟩
  intro heq
  have := congrArg (fun j => match j with
    | Json.obj fs => fs.length
    | _ => 0) heq
  simp [claimChildC5] at this

/-- C5 witness: the amended statement applied to the oracle `hC5`. -/
theorem c5_witness :
    migrateSpans hC5 (Json.arr [spanHi]) initialKeyGenState =
      Except.ok ([Json.obj [("marks", Json.arr [Json.str (hC5 spanMark)]),
        ("_type", Json.str "span"), ("text", Json.str "hi"),
        ("_key", Json.str (hC5 (spanHiChildBare (hC5 spanMark))))]],
        [Json.obj [("foo", Json.num 1), ("_type", Json.str "customMark"),
          ("_key", Json.str (hC5 spanMark))]],
        ⟨[hC5 (spanHiChildBare (hC5 spanMark)), hC5 spanMark], 0⟩) ∧
    migrateSpans hC5 (Json.arr [spanHiEmpty]) initialKeyGenState =
      Except.ok ([Json.obj [("marks", Json.arr []), ("_type", Json.str "span"),
        ("text", Json.str "hi"), ("_key", Json.str (hC5 spanHiEmptyChildBare))]],
        [], ⟨[hC5 spanHiEmptyChildBare], 0⟩) :=
  c5_migrateSpans hC5 (by decide)

/-! ### C1: association-map and placeholder lemmas -/

/-- A successful lookup is a member of the association list. -/
theorem assocGet_mem {α : Type} (l : List (String × α)) (k : String) (v : α)
    (h : assocGet l k = some v) : (k, v) ∈ l := by
  induction l with
  | nil => simp [assocGet] at h
  | cons kv rest ih =>
      rw [show kv = (kv.1, kv.2) from rfl] at h ⊢
      simp only [assocGet] at h
      by_cases hk : kv.1 = k
      · rw [if_pos hk] at h
        cases h
        simp [hk]
      · rw [if_neg hk] at h
        exact List.mem_cons_of_mem _ (ih h)

/-- An upsert never erases a present key. -/
theorem assocGet_assocSet_ne_none {α : Type} (l : List (String × α)) (k k' : String) (v : α)
    (h : assocGet l k ≠ none) : assocGet (assocSet l k' v) k ≠ none := by
  by_cases hk : k' = k
  · subst hk
    rw [assocGet_assocSet_same]
    simp
  · rw [assocGet_assocSet_other l k' k v (fun he => hk he.symm)]
    exact h

/-- Every pair of a `keyBy` result comes from the accumulator or is an item
stored under its own id key. -/
theorem keyBy_mem (items : List Json) :
    ∀ (acc m : List (String × Json)), keyBy items acc = Except.ok m →
    ∀ k d, (k, d) ∈ m → (k, d) ∈ acc ∨ (d ∈ items ∧ jsIdKey d = Except.ok k) := by
  induction items with
  | nil =>
      intro acc m h k d hm
      cases h
      exact Or.inl hm
  | cons item rest ih =>
      intro acc m h k d hm
      simp only [keyBy] at h
      rcases hid : jsIdKey item with e | ki
      · rw [hid] at h
        exact Except.noConfusion h
      · rw [hid] at h
        rcases ih (assocSet acc ki item) m h k d hm with h' | h'
        · rcases assocSet_mem acc ki item (k, d) h' with h'' | h''
          · exact Or.inl h''
          · simp only [Prod.mk.injEq] at h''
            refine Or.inr ⟨by simp [h''.2], ?_⟩
            rw [h''.1, h''.2]
            exact hid
        · exact Or.inr ⟨List.mem_cons_of_mem _ h'.1, h'.2⟩

/-- A present key survives an entire `keyBy` run. -/
theorem keyBy_preserves_key (items : List Json) :
    ∀ (acc m : List (String × Json)), keyBy items acc = Except.ok m →
    ∀ k, assocGet acc k ≠ none → assocGet m k ≠ none := by
  induction items with
  | nil =>
      intro acc m h k hk
      cases h
      exact hk
  | cons item rest ih =>
      intro acc m h k hk
      simp only [keyBy] at h
      rcases hid : jsIdKey item with e | ki
      · rw [hid] at h
        exact Except.noConfusion h
      · rw [hid] at h
        exact ih _ m h k (assocGet_assocSet_ne_none acc k ki item hk)

/-- Every item's id key is present in a `keyBy` result. -/
theorem keyBy_key_present (items : List Json) :
    ∀ (acc m : List (String × Json)), keyBy items acc = Except.ok m →
    ∀ d ∈ items, ∀ k, jsIdKey d = Except.ok k → assocGet m k ≠ none := by
  induction items with
  | nil => simp
  | cons item rest ih =>
      intro acc m h d hd k hk
      simp only [keyBy] at h
      rcases hid : jsIdKey item with e | ki
      · rw [hid] at h
        exact Except.noConfusion h
      · rw [hid] at h
        rcases List.mem_cons.mp hd with hd' | hd'
        · subst hd'
          rw [hid] at hk
          cases hk
          refine keyBy_preserves_key rest _ m h k ?_
          rw [assocGet_assocSet_same]
          simp
        · exact ih (assocSet acc ki item) m h d hd' k hk


/-- Membership in a flattened list of lists. -/
theorem flatten_mem {α : Type} (x : α) (ls : List (List α)) :
    x ∈ flatten ls ↔ ∃ l ∈ ls, x ∈ l := by
  have key : ∀ (acc : List α), x ∈ ls.foldl (fun flat item => flat ++ item) acc ↔
      x ∈ acc ∨ ∃ l ∈ ls, x ∈ l := by
    induction ls with
    | nil => simp
    | cons l rest ih =>
        intro acc
        simp only [List.foldl_cons]
        rw [ih (acc ++ l)]
        simp only [List.mem_append, List.mem_cons]
        constructor
        · rintro ((h | h) | ⟨l', hl', hx⟩)
          · exact Or.inl h
          · exact Or.inr ⟨l, Or.inl rfl, h⟩
          · exact Or.inr ⟨l', Or.inr hl', hx⟩
        · rintro (h | ⟨l', hl' | hl', hx⟩)
          · exact Or.inl (Or.inl h)
          · exact Or.inl (Or.inr (hl' ▸ hx))
          · exact Or.inr ⟨l', hl', hx⟩
  simpa [flatten] using key []

/-- Soundness of the placeholder collection: every collected entry comes from
one of the repaired references. -/
theorem collectPlaceholders_mem (byId : List (String × Json)) :
    ∀ (brs : List BadRef) (ps : List (Option Json)),
    collectPlaceholders byId brs = Except.ok ps →
    ∀ x ∈ ps, ∃ b ∈ brs, placeholderFor byId b = Except.ok x := by
  intro brs
  induction brs with
  | nil =>
      intro ps h x hx
      cases h
      simp at hx
  | cons b rest ih =>
      intro ps h x hx
      simp only [collectPlaceholders] at h
      rcases hb : placeholderFor byId b with e | p
      · rw [hb] at h
        exact Except.noConfusion h
      · rw [hb] at h
        rcases hr : collectPlaceholders byId rest with e | ps'
        · rw [hr] at h
          exact Except.noConfusion h
        · rw [hr] at h
          cases h
          rcases List.mem_cons.mp hx with hx' | hx'
          · exact ⟨b, by simp, hx' ▸ hb⟩
          · obtain ⟨b', hb', hpb'⟩ := ih ps' hr x hx'
            exact ⟨b', List.mem_cons_of_mem _ hb', hpb'⟩

/-- Completeness of the placeholder collection: every repaired reference
contributed an entry. -/
theorem collectPlaceholders_complete (byId : List (String × Json)) :
    ∀ (brs : List BadRef) (ps : List (Option Json)),
    collectPlaceholders byId brs = Except.ok ps →
    ∀ b ∈ brs, ∃ x ∈ ps, placeholderFor byId b = Except.ok x := by
  intro brs
  induction brs with
  | nil => simp
  | cons b rest ih =>
      intro ps h b' hb'
      simp only [collectPlaceholders] at h
      rcases hb : placeholderFor byId b with e | p
      · rw [hb] at h
        exact Except.noConfusion h
      · rw [hb] at h
        rcases hr : collectPlaceholders byId rest with e | ps'
        · rw [hr] at h
          exact Except.noConfusion h
        · rw [hr] at h
          cases h
          rcases List.mem_cons.mp hb' with hb'' | hb''
          · exact ⟨p, by simp, hb'' ▸ hb⟩
          · obtain ⟨x, hx, hpx⟩ := ih ps' hr b' hb''
            exact ⟨x, List.mem_cons_of_mem _ hx, hpx⟩

/-- Unfolding a successful `placeholderFor`: the fixed reference id is a
string, and the entry is `none` exactly when a truthy published copy is
keyed; otherwise it is the seeded placeholder object. -/
theorem placeholderFor_ok (byId : List (String × Json)) (b : BadRef)
    (x : Option Json) (h : placeholderFor byId b = Except.ok x) :
    ∃ r, jsGetF b.fixed "_ref" = some (Json.str r) ∧
      ((truthyOpt (assocGet byId (getPublishedId r)) = true ∧ x = none) ∨
       (truthyOpt (assocGet byId (getPublishedId r)) = false ∧
        x = some (Json.obj (assocSet (jsSpreadFields (assocGet byId (getDraftId r)))
          "_id" (Json.str (getPublishedId r)))))) := by
  simp only [placeholderFor] at h
  rcases hr : jsGetF b.fixed "_ref" with _ | rv
  · rw [hr] at h
    exact Except.noConfusion h
  · rw [hr] at h
    cases rv with
    | str r =>
        refine ⟨r, rfl, ?_⟩
        replace h : (if truthyOpt (assocGet byId (getPublishedId r)) = true then
            (Except.ok none : Except JsErr (Option Json))
          else Except.ok (some (Json.obj
            (assocSet (jsSpreadFields (assocGet byId (getDraftId r)))
              "_id" (Json.str (getPublishedId r)))))) = Except.ok x := h
        by_cases ht : truthyOpt (assocGet byId (getPublishedId r)) = true
        · rw [if_pos ht] at h
          cases h
          exact Or.inl ⟨ht, rfl⟩
        · rw [if_neg ht] at h
          cases h
          exact Or.inr ⟨by simpa using ht, rfl⟩
    | null => exact Except.noConfusion h
    | undef => exact Except.noConfusion h
    | bool bb => exact Except.noConfusion h
    | num n => exact Except.noConfusion h
    | arr items => exact Except.noConfusion h
    | obj fs => exact Except.noConfusion h

/-- With all fetched documents objects, a truthy keyed lookup under an id is
the same as some fetched document carrying that id key. -/
theorem truthy_lookup_iff (allDocs : List Json) (byId : List (String × Json))
    (hkb : keyBy allDocs [] = Except.ok byId)
    (hobj : ∀ d ∈ allDocs, ∃ fs, d = Json.obj fs) (key : String) :
    truthyOpt (assocGet byId key) = true ↔
      ∃ d ∈ allDocs, jsIdKey d = Except.ok key := by
  constructor
  · intro ht
    rcases hget : assocGet byId key with _ | v
    · rw [hget] at ht
      simp [truthyOpt] at ht
    · have hmem := assocGet_mem byId key v hget
      rcases keyBy_mem allDocs [] byId hkb key v hmem with h' | h'
      · simp at h'
      · exact ⟨v, h'.1, h'.2⟩
  · rintro ⟨d, hd, hid⟩
    have hne := keyBy_key_present allDocs [] byId hkb d hd key hid
    rcases hget : assocGet byId key with _ | v
    · exact absurd hget hne
    · have hmem := assocGet_mem byId key v hget
      rcases keyBy_mem allDocs [] byId hkb key v hmem with h' | h'
      · simp at h'
      · obtain ⟨fs, hfs⟩ := hobj v h'.1
        simp [truthyOpt, hfs, truthy]

/-- Every de-duplicated document was one of the inputs. -/
theorem uniqById_mem (items queued : List Json) (h : uniqById items = Except.ok queued) :
    ∀ q ∈ queued, q ∈ items := by
  intro q hq
  simp only [uniqById] at h
  rcases hkb : keyBy items [] with e | keyed
  · rw [hkb] at h
    exact Except.noConfusion h
  · rw [hkb] at h
    cases h
    obtain ⟨⟨k, q'⟩, hmem, hq'⟩ := List.mem_map.mp hq
    rcases keyBy_mem items [] keyed hkb k q' hmem with h' | h'
    · simp at h'
    · exact hq' ▸ h'.1

/-- Every input id appears among the de-duplicated documents. -/
theorem uniqById_complete (items queued : List Json) (h : uniqById items = Except.ok queued) :
    ∀ x ∈ items, ∀ k, jsIdKey x = Except.ok k →
    ∃ q ∈ queued, jsIdKey q = Except.ok k := by
  intro x hx k hk
  simp only [uniqById] at h
  rcases hkb : keyBy items [] with e | keyed
  · rw [hkb] at h
    exact Except.noConfusion h
  · rw [hkb] at h
    cases h
    have hne := keyBy_key_present items [] keyed hkb x hx k hk
    rcases hget : assocGet keyed k with _ | q
    · exact absurd hget hne
    · have hmem := assocGet_mem keyed k q hget
      refine ⟨q, List.mem_map.mpr ⟨(k, q), hmem, rfl⟩, ?_⟩
      rcases keyBy_mem items [] keyed hkb k q hmem with h' | h'
      · simp at h'
      · exact h'.2

/-- Unfolding a non-throwing reference-repair step: either nothing was
recorded, or the node is an object with a truthy, non-weak, draft string
`_ref`, and exactly the repaired entry was appended. -/
theorem badRefStep_ok_cases (l l' : List BadRef) (v : Json) (p : List Seg)
    (h : badRefStep (Except.ok l) v p = Except.ok l') :
    l' = l ∨ ∃ fields r, v = Json.obj fields ∧
      assocGet fields "_ref" = some (Json.str r) ∧
      truthy (Json.str r) = true ∧
      truthyOpt (assocGet fields "_weak") = false ∧
      isDraftId r = true ∧
      l' = l ++ [⟨serializePath p,
        Json.obj (assocSet fields "_ref" (Json.str (getPublishedId r)))⟩] := by
  cases v with
  | null => exact Except.noConfusion h
  | undef => exact Or.inl (Except.ok.inj h).symm
  | bool b => exact Or.inl (Except.ok.inj h).symm
  | num n => exact Or.inl (Except.ok.inj h).symm
  | str s => exact Or.inl (Except.ok.inj h).symm
  | arr items => exact Or.inl (Except.ok.inj h).symm
  | obj fields =>
      rcases hr : assocGet fields "_ref" with _ | rv
      · have he : badRefStep (Except.ok l) (Json.obj fields) p = Except.ok l := by
          simp [badRefStep, isObjectTypeof, jsGetF, hr]
        rw [he] at h
        exact Or.inl (Except.ok.inj h).symm
      · by_cases ht : truthy rv
        · by_cases hw : truthyOpt (assocGet fields "_weak")
          · have he : badRefStep (Except.ok l) (Json.obj fields) p = Except.ok l := by
              simp [badRefStep, isObjectTypeof, jsGetF, hr, ht, hw]
            rw [he] at h
            exact Or.inl (Except.ok.inj h).symm
          · cases rv with
            | str r =>
                by_cases hd : isDraftId r
                · have he : badRefStep (Except.ok l) (Json.obj fields) p =
                      Except.ok (l ++ [⟨serializePath p,
                        Json.obj (assocSet fields "_ref" (Json.str (getPublishedId r)))⟩]) := by
                    simp [badRefStep, isObjectTypeof, jsGetF, hr, ht, hw, hd]
                  rw [he] at h
                  exact Or.inr ⟨fields, r, rfl, hr, ht, by simpa using hw, hd,
                    (Except.ok.inj h).symm⟩
                · have he : badRefStep (Except.ok l) (Json.obj fields) p = Except.ok l := by
                    simp [badRefStep, isObjectTypeof, jsGetF, hr, ht, hw, hd]
                  rw [he] at h
                  exact Or.inl (Except.ok.inj h).symm
            | null => exact absurd ht (by decide)
            | undef => exact absurd ht (by decide)
            | bool b =>
                have he : badRefStep (Except.ok l) (Json.obj fields) p =
                    Except.error JsErr.typeError := by
                  simp [badRefStep, isObjectTypeof, jsGetF, hr, ht, hw]
                rw [he] at h
                exact Except.noConfusion h
            | num n =>
                have he : badRefStep (Except.ok l) (Json.obj fields) p =
                    Except.error JsErr.typeError := by
                  simp [badRefStep, isObjectTypeof, jsGetF, hr, ht, hw]
                rw [he] at h
                exact Except.noConfusion h
            | arr xs =>
                have he : badRefStep (Except.ok l) (Json.obj fields) p =
                    Except.error JsErr.typeError := by
                  simp [badRefStep, isObjectTypeof, jsGetF, hr, ht, hw]
                rw [he] at h
                exact Except.noConfusion h
            | obj fs =>
                have he : badRefStep (Except.ok l) (Json.obj fields) p =
                    Except.error JsErr.typeError := by
                  simp [badRefStep, isObjectTypeof, jsGetF, hr, ht, hw]
                rw [he] at h
                exact Except.noConfusion h
        · have he : badRefStep (Except.ok l) (Json.obj fields) p = Except.ok l := by
            simp [badRefStep, isObjectTypeof, jsGetF, hr, ht]
          rw [he] at h
          exact Or.inl (Except.ok.inj h).symm

/-- Every entry of a successful `getBadRefsForDocument` result is a non-weak
draft reference node of the document, rewritten to its published form. -/
theorem getBadRefs_shape (doc : Json) (res : DocBadRefs)
    (h : getBadRefsForDocument doc = Except.ok (some res)) :
    res.document = doc ∧
    ∀ b ∈ res.badRefs, ∃ p fields r, (p, Json.obj fields) ∈ jsonNodes doc [] ∧
      assocGet fields "_ref" = some (Json.str r) ∧
      truthy (Json.str r) = true ∧
      truthyOpt (assocGet fields "_weak") = false ∧
      isDraftId r = true ∧
      b.path = serializePath p ∧
      b.fixed = Json.obj (assocSet fields "_ref" (Json.str (getPublishedId r))) := by
  have hinv : ∀ l, jsonReduce badRefStep doc (Except.ok []) = Except.ok l →
      ∀ b ∈ l, ∃ p fields r, (p, Json.obj fields) ∈ jsonNodes doc [] ∧
        assocGet fields "_ref" = some (Json.str r) ∧
        truthy (Json.str r) = true ∧
        truthyOpt (assocGet fields "_weak") = false ∧
        isDraftId r = true ∧
        b.path = serializePath p ∧
        b.fixed = Json.obj (assocSet fields "_ref" (Json.str (getPublishedId r))) := by
    refine foldl_inv (fun (acc : Except JsErr (List BadRef)) =>
      ∀ (l : List BadRef), acc = Except.ok l →
      ∀ b ∈ l, ∃ p fields r, (p, Json.obj fields) ∈ jsonNodes doc [] ∧
        assocGet fields "_ref" = some (Json.str r) ∧
        truthy (Json.str r) = true ∧
        truthyOpt (assocGet fields "_weak") = false ∧
        isDraftId r = true ∧
        b.path = serializePath p ∧
        b.fixed = Json.obj (assocSet fields "_ref" (Json.str (getPublishedId r))))
      _ (jsonNodes doc []) _ ?_ ?_
    · intro l hl b hb
      have : ([] : List BadRef) = l := Except.ok.inj hl
      rw [← this] at hb
      simp at hb
    · intro a x hx ha l hl b hb
      rcases a with e | l0
      · rw [show badRefStep (Except.error e) x.2 x.1 = Except.error e from rfl] at hl
        exact Except.noConfusion hl
      · rcases badRefStep_ok_cases l0 l x.2 x.1 hl with h' | ⟨fields, r, hv, hrf, ht, hw, hd, hl'⟩
        · exact ha l0 rfl b (h' ▸ hb)
        · rw [hl'] at hb
          rcases List.mem_append.mp hb with hb' | hb'
          · exact ha l0 rfl b hb'
          · simp only [List.mem_singleton] at hb'
            refine ⟨x.1, fields, r, ?_, hrf, ht, hw, hd, by rw [hb'], by rw [hb']⟩
            rw [← hv]
            simpa using hx
  rw [getBadRefsForDocument] at h
  rcases hred : jsonReduce badRefStep doc (Except.ok []) with e | badRefs
  · rw [hred] at h
    exact Except.noConfusion h
  · rw [hred] at h
    replace h : (Except.ok (if badRefs.length = 0 then none
        else some (⟨doc, badRefs⟩ : DocBadRefs)) : Except JsErr (Option DocBadRefs)) =
        Except.ok (some res) := h
    have h2 := Except.ok.inj h
    by_cases hlen : badRefs.length = 0
    · rw [if_pos hlen] at h2
      exact Option.noConfusion h2
    · rw [if_neg hlen] at h2
      have hres : res = ⟨doc, badRefs⟩ := (Option.some.inj h2).symm
      subst hres
      exact ⟨rfl, hinv badRefs hred⟩

/-- C1 (amended): every repaired reference is the source object with its
`_ref` stripped to the published id; the per-document set patch assigns
exactly the repaired objects at their serialized paths; and a placeholder for
a referenced published id is queued precisely when the fetched set contains no
document keyed by that published id — regardless of whether a draft copy is
present (when it is, the placeholder is seeded from it; when not, the
placeholder consists of the `_id` alone). -/
theorem c1_placeholder_queueing :
    (∀ (doc : Json) (res : DocBadRefs), getBadRefsForDocument doc = Except.ok (some res) →
      ∀ b ∈ res.badRefs, ∃ p fields r, (p, Json.obj fields) ∈ jsonNodes doc [] ∧
        assocGet fields "_ref" = some (Json.str r) ∧
        truthy (Json.str r) = true ∧
        truthyOpt (assocGet fields "_weak") = false ∧
        isDraftId r = true ∧
        b.path = serializePath p ∧
        b.fixed = Json.obj (assocSet fields "_ref" (Json.str (getPublishedId r)))) ∧
    (∀ (dbr : DocBadRefs) (patch : SetPatch), patch ∈ getSetPatches [dbr] →
      ∀ k v, (k, v) ∈ patch.set → ∃ b ∈ dbr.badRefs, k = b.path ∧ v = b.fixed) ∧
    (∀ (allDocs : List Json) (dbrs : List DocBadRefs) (queued : List Json),
      getDocsWithPublishFlag allDocs dbrs = Except.ok queued →
      (∀ d ∈ allDocs, ∃ fs, d = Json.obj fs) →
      ∀ q ∈ queued, ∃ dbr ∈ dbrs, ∃ b ∈ dbr.badRefs, ∃ r,
        jsGetF b.fixed "_ref" = some (Json.str r) ∧
        jsGetF q "_id" = some (Json.str (getPublishedId r)) ∧
        ¬ ∃ d ∈ allDocs, jsIdKey d = Except.ok (getPublishedId r)) ∧
    (∀ (allDocs : List Json) (dbrs : List DocBadRefs) (queued : List Json),
      getDocsWithPublishFlag allDocs dbrs = Except.ok queued →
      (∀ d ∈ allDocs, ∃ fs, d = Json.obj fs) →
      ∀ dbr ∈ dbrs, ∀ b ∈ dbr.badRefs, ∀ r,
        jsGetF b.fixed "_ref" = some (Json.str r) →
        (¬ ∃ d ∈ allDocs, jsIdKey d = Except.ok (getPublishedId r)) →
        ∃ q ∈ queued, jsGetF q "_id" = some (Json.str (getPublishedId r))) := by
  refine ⟨fun doc res h => (getBadRefs_shape doc res h).2, ?_, ?_, ?_⟩
  · intro dbr patch hpatch k v hkv
    simp only [getSetPatches, List.map_cons, List.map_nil, List.mem_singleton] at hpatch
    subst hpatch
    simp only at hkv
    refine foldl_inv (fun s => ∀ k v, (k, v) ∈ s →
      ∃ b ∈ dbr.badRefs, k = b.path ∧ v = b.fixed) _ dbr.badRefs [] (by simp) ?_ k v hkv
    intro s b hb hs k' v' hkv'
    rcases assocSet_mem s b.path b.fixed (k', v') hkv' with h' | h'
    · exact hs k' v' h'
    · simp only [Prod.mk.injEq] at h'
      exact ⟨b, hb, h'.1, h'.2⟩
  · intro allDocs dbrs queued h hobj q hq
    simp only [getDocsWithPublishFlag] at h
    split at h
    · exact Except.noConfusion h
    · rename_i byId hkb
      split at h
      · exact Except.noConfusion h
      · rename_i ps hcp
        have hqitems := uniqById_mem _ queued h q hq
        have hsome : some q ∈ ps := by
          obtain ⟨x, hx, hxq⟩ := List.mem_filterMap.mp hqitems
          cases x with
          | none => exact Option.noConfusion hxq
          | some y =>
              have : y = q := by simpa using hxq
              exact this ▸ hx
        obtain ⟨b, hb, hpb⟩ := collectPlaceholders_mem byId _ ps hcp (some q) hsome
        obtain ⟨r, hr, hcase⟩ := placeholderFor_ok byId b (some q) hpb
        rcases hcase with ⟨_, habs⟩ | ⟨hfalse, hshape⟩
        · exact Option.noConfusion habs
        · obtain ⟨dbr, hdbr, hbdbr⟩ := (flatten_mem b (dbrs.map (fun d => d.badRefs))).mp hb
          obtain ⟨dbr', hdbr', hdbr''⟩ := List.mem_map.mp hdbr
          refine ⟨dbr', hdbr', b, hdbr'' ▸ hbdbr, r, hr, ?_, ?_⟩
          · have hq' : q = Json.obj (assocSet (jsSpreadFields (assocGet byId (getDraftId r)))
                "_id" (Json.str (getPublishedId r))) := by
              simpa using hshape
            rw [hq']
            simp only [jsGetF]
            exact assocGet_assocSet_same _ _ _
          · intro ⟨d, hd, hid⟩
            have := (truthy_lookup_iff allDocs byId hkb hobj (getPublishedId r)).mpr
              ⟨d, hd, hid⟩
            rw [this] at hfalse
            exact Bool.noConfusion hfalse
  · intro allDocs dbrs queued h hobj dbr hdbr b hb r hr habs
    simp only [getDocsWithPublishFlag] at h
    split at h
    · exact Except.noConfusion h
    · rename_i byId hkb
      split at h
      · exact Except.noConfusion h
      · rename_i ps hcp
        have hbfl : b ∈ flatten (dbrs.map (fun d => d.badRefs)) :=
          (flatten_mem b _).mpr ⟨dbr.badRefs, List.mem_map.mpr ⟨dbr, hdbr, rfl⟩, hb⟩
        obtain ⟨x, hx, hpx⟩ := collectPlaceholders_complete byId _ ps hcp b hbfl
        obtain ⟨r', hr', hcase⟩ := placeholderFor_ok byId b x hpx
        have hrr : r' = r := by
          rw [hr] at hr'
          simpa using hr'.symm
        subst hrr
        have hfalse : truthyOpt (assocGet byId (getPublishedId r')) = false := by
          rcases htl : truthyOpt (assocGet byId (getPublishedId r')) with _ | _
          · rfl
          · obtain ⟨d, hd, hid⟩ := (truthy_lookup_iff allDocs byId hkb hobj _).mp htl
            exact absurd ⟨d, hd, hid⟩ habs
        rcases hcase with ⟨htrue, _⟩ | ⟨_, hshape⟩
        · rw [hfalse] at htrue
          exact Bool.noConfusion htrue
        · set q0 := Json.obj (assocSet (jsSpreadFields (assocGet byId (getDraftId r')))
            "_id" (Json.str (getPublishedId r'))) with hq0
          have hx0 : x = some q0 := hshape
          have hq0items : q0 ∈ ps.filterMap (fun p => p) :=
            List.mem_filterMap.mpr ⟨some q0, hx0 ▸ hx, rfl⟩
          have hidq0 : jsIdKey q0 = Except.ok (getPublishedId r') := by
            rw [hq0]
            simp only [jsIdKey, jsGetF]
            rw [assocGet_assocSet_same]
            rfl
          obtain ⟨q, hqq, hqid⟩ := uniqById_complete _ queued h q0 hq0items
            (getPublishedId r') hidq0
          refine ⟨q, hqq, ?_⟩
          have hqitems := uniqById_mem _ queued h q hqq
          obtain ⟨x', hx', hxq'⟩ := List.mem_filterMap.mp hqitems
          cases x' with
          | none => exact Option.noConfusion hxq'
          | some y =>
              have hyq : y = q := by simpa using hxq'
              obtain ⟨b', hb', hpb'⟩ := collectPlaceholders_mem byId _ ps hcp (some y) hx'
              obtain ⟨r'', hr'', hcase'⟩ := placeholderFor_ok byId b' (some y) hpb'
              rcases hcase' with ⟨_, habs'⟩ | ⟨_, hshape'⟩
              · exact Option.noConfusion habs'
              · have hy : y = Json.obj (assocSet
                    (jsSpreadFields (assocGet byId (getDraftId r'')))
                    "_id" (Json.str (getPublishedId r''))) := Option.some.inj hshape'
                have hidy : jsGetF y "_id" = some (Json.str (getPublishedId r'')) := by
                  rw [hy]
                  simp only [jsGetF]
                  exact assocGet_assocSet_same _ _ _
                have hkeyy : jsIdKey y = Except.ok (jsPropKey (jsGetF y "_id")) := by
                  rw [hy]
                  rfl
                rw [hidy] at hkeyy
                rw [show jsPropKey (some (Json.str (getPublishedId r''))) = getPublishedId r''
                  from rfl] at hkeyy
                have hsame : getPublishedId r'' = getPublishedId r' := by
                  rw [hyq] at hkeyy
                  rw [hkeyy] at hqid
                  exact Except.ok.inj hqid
                rw [hyq] at hidy
                rw [hsame] at hidy
                exact hidy

/-- The counterexample document: one document whose reference points at
`drafts.x`, while neither `x` nor `drafts.x` is in the fetched set. -/
def c1doc : Json := Json.obj [("_id", Json.str "a"),
  ("ref", Json.obj [("_ref", Json.str "drafts.x")])]

/-- The repaired reference of `c1doc`. -/
def c1badRef : BadRef := ⟨"ref", Json.obj [("_ref", Json.str "x")]⟩

/-- The per-document repair result for `c1doc`. -/
def c1dbr : DocBadRefs := ⟨c1doc, [c1badRef]⟩

/-- C1 counterexample: with only `c1doc` fetched (no document with id `x` or
`drafts.x`), the reference is rewritten to `x` and the bare placeholder
`{_id: "x"}` is queued anyway — the claim says nothing should be queued. -/
theorem c1_counterexample :
    getBadRefsForDocument c1doc = Except.ok (some c1dbr) ∧
    getDocsWithPublishFlag [c1doc] [c1dbr] =
      Except.ok [Json.obj [("_id", Json.str "x")]] ∧
    (¬ ∃ d ∈ [c1doc], jsIdKey d = Except.ok "x") ∧
    (¬ ∃ d ∈ [c1doc], jsIdKey d = Except.ok "drafts.x") ∧
    Except.ok [Json.obj [("_id", Json.str "x")]] ≠
      (Except.ok [] : Except JsErr (List Json)) := by
  have hno : ∀ s : String, s ≠ "a" → ¬ ∃ d ∈ [c1doc], jsIdKey d = Except.ok s := by
    rintro s hs ⟨d, hd, hid⟩
    simp only [List.mem_singleton] at hd
    subst hd
    rw [show jsIdKey c1doc = Except.ok "a" from rfl] at hid
    exact hs (Except.ok.inj hid).symm
  refine ⟨rfl, rfl, hno "x" (by decide), hno "drafts.x" (by decide), ?_⟩
  intro h
  exact List.noConfusion (Except.ok.inj h)

/-- C1 witness: the amended characterization applied to the `c1doc`
scenario. -/
theorem c1_witness :
    (∃ p fields r, (p, Json.obj fields) ∈ jsonNodes c1doc [] ∧
      assocGet fields "_ref" = some (Json.str r) ∧
      truthy (Json.str r) = true ∧
      truthyOpt (assocGet fields "_weak") = false ∧
      isDraftId r = true ∧
      c1badRef.path = serializePath p ∧
      c1badRef.fixed = Json.obj (assocSet fields "_ref" (Json.str (getPublishedId r)))) ∧
    (∃ b ∈ c1dbr.badRefs, "ref" = b.path ∧ Json.obj [("_ref", Json.str "x")] = b.fixed) ∧
    (∃ dbr ∈ [c1dbr], ∃ b ∈ dbr.badRefs, ∃ r,
      jsGetF b.fixed "_ref" = some (Json.str r) ∧
      jsGetF (Json.obj [("_id", Json.str "x")]) "_id" =
        some (Json.str (getPublishedId r)) ∧
      ¬ ∃ d ∈ [c1doc], jsIdKey d = Except.ok (getPublishedId r)) ∧
    (∃ q ∈ [Json.obj [("_id", Json.str "x")]],
      jsGetF q "_id" = some (Json.str (getPublishedId "x"))) := by
  have hobj : ∀ d ∈ [c1doc], ∃ fs, d = Json.obj fs := by
    intro d hd
    simp only [List.mem_singleton] at hd
    subst hd
    exact ⟨_, rfl⟩
  refine ⟨c1_placeholder_queueing.1 c1doc c1dbr rfl c1badRef (by simp [c1dbr]), ?_, ?_, ?_⟩
  · refine c1_placeholder_queueing.2.1 c1dbr
      ⟨c1doc, [("ref", Json.obj [("_ref", Json.str "x")])]⟩ ?_ "ref"
      (Json.obj [("_ref", Json.str "x")]) (by simp)
    exact List.mem_singleton.mpr rfl
  · exact c1_placeholder_queueing.2.2.1 [c1doc] [c1dbr]
      [Json.obj [("_id", Json.str "x")]] rfl hobj (Json.obj [("_id", Json.str "x")])
      (by simp)
  · refine c1_placeholder_queueing.2.2.2 [c1doc] [c1dbr]
      [Json.obj [("_id", Json.str "x")]] rfl hobj c1dbr (by simp) c1badRef
      (by simp [c1dbr]) "x" rfl ?_
    rintro ⟨d, hd, hid⟩
    simp only [List.mem_singleton] at hd
    subst hd
    rw [show jsIdKey c1doc = Except.ok "a" from rfl] at hid
    exact absurd (Except.ok.inj hid) (by decide)

/-! ### C6: round-trip idempotence — helper lemmas

The remote `set` application (`parsePathExpr`, `setAtPath`, `applySetEntries`)
was defined above; here we develop the lemmas connecting the walker's node
list, structured-path lookup, and path replacement. -/

/-- The reference-repair reducer throws on a value exactly when this predicate
holds: the value is `null`, or an object whose truthy non-weak `_ref` is not a
string. -/
def refUnsafe : Json → Bool
  | Json.null => true
  | Json.obj fields =>
      (match assocGet fields "_ref" with
        | some rv => truthy rv && !(truthyOpt (assocGet fields "_weak")) &&
            !(match rv with
              | Json.str _ => true
              | _ => false)
        | none => false)
  | _ => false

/-- A node that neither matches nor throws leaves the accumulator alone. -/
theorem badRefStep_not_bad (l : List BadRef) (v : Json) (p : List Seg)
    (hm : refMatch v = false) (hs : refUnsafe v = false) :
    badRefStep (Except.ok l) v p = Except.ok l := by
  cases v with
  | null => simp [refUnsafe] at hs
  | undef => rfl
  | bool b => rfl
  | num n => rfl
  | str s => rfl
  | arr items => rfl
  | obj fields =>
      simp only [refMatch, jsGetF] at hm
      simp only [refUnsafe] at hs
      rcases hr : assocGet fields "_ref" with _ | rv
      · simp [badRefStep, isObjectTypeof, jsGetF, hr]
      · rw [hr] at hm hs
        by_cases ht : truthy rv
        · by_cases hw : truthyOpt (assocGet fields "_weak")
          · simp [badRefStep, isObjectTypeof, jsGetF, hr, ht, hw]
          · cases rv with
            | str r =>
                have hd : isDraftId r = false := by
                  simp only [ht, hw] at hm
                  simpa using hm
                simp [badRefStep, isObjectTypeof, jsGetF, hr, ht, hw, hd]
            | null => exact absurd ht (by decide)
            | undef => exact absurd ht (by decide)
            | bool b => simp [ht, hw] at hs
            | num n => simp [ht, hw] at hs
            | arr xs => simp [ht, hw] at hs
            | obj fs => simp [ht, hw] at hs
        · simp [badRefStep, isObjectTypeof, jsGetF, hr, ht]

/-- An unsafe node throws from any non-error accumulator. -/
theorem badRefStep_unsafe (l : List BadRef) (v : Json) (p : List Seg)
    (hs : refUnsafe v = true) :
    badRefStep (Except.ok l) v p = Except.error JsErr.typeError := by
  cases v with
  | null => rfl
  | undef => simp [refUnsafe] at hs
  | bool b => simp [refUnsafe] at hs
  | num n => simp [refUnsafe] at hs
  | str s => simp [refUnsafe] at hs
  | arr items => simp [refUnsafe] at hs
  | obj fields =>
      simp only [refUnsafe] at hs
      rcases hr : assocGet fields "_ref" with _ | rv
      · rw [hr] at hs
        simp at hs
      · rw [hr] at hs
        by_cases ht : truthy rv
        · by_cases hw : truthyOpt (assocGet fields "_weak")
          · simp [ht, hw] at hs
          · cases rv with
            | str r => simp [ht, hw] at hs
            | null => exact absurd ht (by decide)
            | undef => exact absurd ht (by decide)
            | bool b => simp [badRefStep, isObjectTypeof, jsGetF, hr, ht, hw]
            | num n => simp [badRefStep, isObjectTypeof, jsGetF, hr, ht, hw]
            | arr xs => simp [badRefStep, isObjectTypeof, jsGetF, hr, ht, hw]
            | obj fs => simp [badRefStep, isObjectTypeof, jsGetF, hr, ht, hw]
        · simp [ht] at hs

/-- If the reference walk returns at all, every visited node was safe. -/
theorem refSafe_of_ok (doc : Json) (l : List BadRef)
    (h : jsonReduce badRefStep doc (Except.ok []) = Except.ok l) :
    ∀ pv ∈ jsonNodes doc [], refUnsafe pv.2 = false := by
  intro pv hpv
  by_contra hbad
  have hbad' : refUnsafe pv.2 = true := by simpa using hbad
  obtain ⟨l1, l2, hsplit⟩ := List.append_of_mem hpv
  rw [jsonReduce, hsplit, List.foldl_append, List.foldl_cons] at h
  have hmid : ∀ acc : Except JsErr (List BadRef),
      badRefStep acc pv.2 pv.1 = Except.error JsErr.typeError := by
    intro acc
    match acc with
    | Except.error JsErr.typeError => rfl
    | Except.ok l0 => exact badRefStep_unsafe l0 pv.2 pv.1 hbad'
  conv_lhs at h => rw [hmid]
  rw [badRefStep_foldl_error l2 JsErr.typeError] at h
  exact Except.noConfusion h

/-- A document with no matching and no unsafe node repairs to `null`. -/
theorem getBadRefs_ok_none_of_notBad (doc : Json)
    (hnb : ∀ pv ∈ jsonNodes doc [], refMatch pv.2 = false ∧ refUnsafe pv.2 = false) :
    getBadRefsForDocument doc = Except.ok none := by
  have hred : jsonReduce badRefStep doc (Except.ok []) = Except.ok [] := by
    refine foldl_inv (fun acc => acc = Except.ok []) _ (jsonNodes doc []) _ rfl ?_
    intro a x hx ha
    rw [ha]
    exact badRefStep_not_bad [] x.2 x.1 (hnb x hx).1 (hnb x hx).2
  rw [getBadRefsForDocument, hred]
  rfl

/-- A document with no date-typed node generates no patch. -/
theorem generatePatches_none_of_noMatch (doc : Json)
    (hno : ∀ pv ∈ jsonNodes doc [], dateMatch pv.2 pv.1 = false) :
    generatePatchesForDocument doc = none := by
  have hempty : jsonReduce datePatchStep doc [] = [] := by
    refine foldl_inv (fun acc => acc = []) _ (jsonNodes doc []) [] rfl ?_
    intro a x hx ha
    rw [datePatchStep_eq, if_neg (by simp [hno x hx]), ha]
  simp [generatePatchesForDocument, hempty]

/-- Every entry of a built set patch names one of the repaired references. -/
theorem setPatch_entries_shape (brs : List BadRef) (k : String) (v : Json)
    (hkv : (k, v) ∈ brs.foldl (fun s b => assocSet s b.path b.fixed) []) :
    ∃ b ∈ brs, k = b.path ∧ v = b.fixed := by
  refine foldl_inv (fun s => ∀ k v, (k, v) ∈ s → ∃ b ∈ brs, k = b.path ∧ v = b.fixed)
    _ brs [] (by simp) ?_ k v hkv
  intro s b hb hs k' v' hkv'
  rcases assocSet_mem s b.path b.fixed (k', v') hkv' with h' | h'
  · exact hs k' v' h'
  · simp only [Prod.mk.injEq] at h'
    exact ⟨b, hb, h'.1, h'.2⟩

/-- The root pair is always among a value's nodes. -/
theorem jsonNodes_self (j : Json) (base : List Seg) : (base, j) ∈ jsonNodes j base := by
  cases j <;> simp [jsonNodes]

/-- Looking up the empty path yields the value itself. -/
theorem nodeAt_nil (j : Json) : nodeAt j [] = some j := by
  cases j <;> rfl

mutual
/-- A structured-path lookup hit is among the walker's nodes. -/
theorem nodeAt_mem_nodes : ∀ (j : Json) (r : List Seg) (v : Json) (base : List Seg),
    nodeAt j r = some v → (base ++ r, v) ∈ jsonNodes j base
  | j, [], v, base => by
      intro h
      rw [nodeAt_nil] at h
      have hv : j = v := Option.some.inj h
      subst hv
      simpa using jsonNodes_self j base
  | Json.obj fs, Seg.key k :: rest, v, base => by
      intro h
      have hm := nodeAtField_mem_nodes fs k rest v base h
      simp only [jsonNodes]
      exact List.mem_cons_of_mem _ hm
  | Json.obj _, Seg.idx _ :: _, v, base => by
      intro h
      exact Option.noConfusion h
  | Json.arr xs, Seg.idx n :: rest, v, base => by
      intro h
      have hm := nodeAtItem_mem_nodes xs n rest v 0 base h
      simp only [jsonNodes]
      refine List.mem_cons_of_mem _ ?_
      simpa using hm
  | Json.arr _, Seg.key _ :: _, v, base => by
      intro h
      exact Option.noConfusion h
  | Json.null, _ :: _, v, base => by
      intro h
      exact Option.noConfusion h
  | Json.undef, _ :: _, v, base => by
      intro h
      exact Option.noConfusion h
  | Json.bool _, _ :: _, v, base => by
      intro h
      exact Option.noConfusion h
  | Json.num _, _ :: _, v, base => by
      intro h
      exact Option.noConfusion h
  | Json.str _, _ :: _, v, base => by
      intro h
      exact Option.noConfusion h
/-- Field-list version of `nodeAt_mem_nodes`. -/
theorem nodeAtField_mem_nodes : ∀ (fs : List (String × Json)) (k : String) (rest : List Seg)
    (v : Json) (base : List Seg),
    nodeAtField fs k rest = some v → (base ++ Seg.key k :: rest, v) ∈ fieldNodes fs base
  | [], k, rest, v, base => by
      intro h
      exact Option.noConfusion h
  | (k0, v0) :: fs', k, rest, v, base => by
      intro h
      simp only [nodeAtField] at h
      by_cases hk : k0 = k
      · rw [if_pos hk] at h
        have := nodeAt_mem_nodes v0 rest v (base ++ [Seg.key k0]) h
        simp only [fieldNodes, List.mem_append]
        left
        subst hk
        simpa [List.append_assoc] using this
      · rw [if_neg hk] at h
        simp only [fieldNodes, List.mem_append]
        right
        exact nodeAtField_mem_nodes fs' k rest v base h
/-- Item-list version of `nodeAt_mem_nodes` (with the index offset). -/
theorem nodeAtItem_mem_nodes : ∀ (xs : List Json) (n : Nat) (rest : List Seg) (v : Json)
    (i : Nat) (base : List Seg),
    nodeAtItem xs n rest = some v → (base ++ Seg.idx (i + n) :: rest, v) ∈ itemNodes xs i base
  | [], _, rest, v, i, base => by
      intro h
      exact Option.noConfusion h
  | x :: xs', 0, rest, v, i, base => by
      intro h
      have := nodeAt_mem_nodes x rest v (base ++ [Seg.idx i]) h
      simp only [itemNodes, List.mem_append]
      left
      simpa [List.append_assoc] using this
  | x :: xs', n + 1, rest, v, i, base => by
      intro h
      have := nodeAtItem_mem_nodes xs' n rest v (i + 1) base h
      simp only [itemNodes, List.mem_append]
      right
      rw [show i + (n + 1) = (i + 1) + n by omega]
      exact this
end

mutual
/-- On a well-formed value every walker node is a structured-path lookup
hit. -/
theorem mem_nodes_nodeAt : ∀ (j : Json) (base q : List Seg) (v : Json),
    wfJson j = true → (q, v) ∈ jsonNodes j base →
    ∃ r, q = base ++ r ∧ nodeAt j r = some v
  | Json.obj fs, base, q, v => by
      intro hwf h
      simp only [jsonNodes, List.mem_cons, Prod.mk.injEq] at h
      rcases h with ⟨h1, h2⟩ | h
      · exact ⟨[], by simp [h1], by rw [← h2]; exact nodeAt_nil _⟩
      · simp only [wfJson, Bool.and_eq_true] at hwf
        obtain ⟨k, r, hq, hget, _⟩ :=
          mem_fieldNodes_nodeAt fs base q v hwf.2 hwf.1 h
        exact ⟨Seg.key k :: r, hq, hget⟩
  | Json.arr xs, base, q, v => by
      intro hwf h
      simp only [jsonNodes, List.mem_cons, Prod.mk.injEq] at h
      rcases h with ⟨h1, h2⟩ | h
      · exact ⟨[], by simp [h1], by rw [← h2]; exact nodeAt_nil _⟩
      · simp only [wfJson] at hwf
        obtain ⟨n, r, hq, hget, hle⟩ := mem_itemNodes_nodeAt xs 0 base q v hwf h
        refine ⟨Seg.idx n :: r, hq, ?_⟩
        have : nodeAt (Json.arr xs) (Seg.idx n :: r) = nodeAtItem xs n r := rfl
        rw [this, show n = n - 0 from rfl]
        exact hget
  | Json.null, base, q, v => by
      intro _ h
      simp only [jsonNodes, List.mem_singleton, Prod.mk.injEq] at h
      exact ⟨[], by simp [h.1], by rw [← h.2]; exact nodeAt_nil _⟩
  | Json.undef, base, q, v => by
      intro _ h
      simp only [jsonNodes, List.mem_singleton, Prod.mk.injEq] at h
      exact ⟨[], by simp [h.1], by rw [← h.2]; exact nodeAt_nil _⟩
  | Json.bool _, base, q, v => by
      intro _ h
      simp only [jsonNodes, List.mem_singleton, Prod.mk.injEq] at h
      exact ⟨[], by simp [h.1], by rw [← h.2]; exact nodeAt_nil _⟩
  | Json.num _, base, q, v => by
      intro _ h
      simp only [jsonNodes, List.mem_singleton, Prod.mk.injEq] at h
      exact ⟨[], by simp [h.1], by rw [← h.2]; exact nodeAt_nil _⟩
  | Json.str _, base, q, v => by
      intro _ h
      simp only [jsonNodes, List.mem_singleton, Prod.mk.injEq] at h
      exact ⟨[], by simp [h.1], by rw [← h.2]; exact nodeAt_nil _⟩
/-- Field-list version of `mem_nodes_nodeAt`. -/
theorem mem_fieldNodes_nodeAt : ∀ (fs : List (String × Json)) (base q : List Seg) (v : Json),
    wfFields fs = true → nodupKeys (fs.map Prod.fst) = true →
    (q, v) ∈ fieldNodes fs base →
    ∃ k r, q = base ++ Seg.key k :: r ∧ nodeAtField fs k r = some v ∧
      k ∈ fs.map Prod.fst
  | [], base, q, v => by
      intro _ _ h
      simp [fieldNodes] at h
  | (k0, v0) :: fs', base, q, v => by
      intro hwf hnd h
      simp only [wfFields, Bool.and_eq_true] at hwf
      simp only [List.map_cons, nodupKeys, Bool.and_eq_true] at hnd
      simp only [fieldNodes, List.mem_append] at h
      rcases h with h | h
      · obtain ⟨r, hq, hget⟩ := mem_nodes_nodeAt v0 (base ++ [Seg.key k0]) q v hwf.1 h
        refine ⟨k0, r, by simpa [List.append_assoc] using hq, ?_, by simp⟩
        simp only [nodeAtField, if_pos rfl]
        exact hget
      · obtain ⟨k, r, hq, hget, hkmem⟩ :=
          mem_fieldNodes_nodeAt fs' base q v hwf.2 hnd.2 h
        have hk0 : k0 ∉ fs'.map Prod.fst := by
          intro hmem
          have hc : (fs'.map Prod.fst).contains k0 = true := List.elem_iff.mpr hmem
          have hnd1 := hnd.1
          rw [hc] at hnd1
          simp at hnd1
        have hne : ¬(k0 = k) := fun he => hk0 (by rw [he]; exact hkmem)
        refine ⟨k, r, hq, ?_, List.mem_cons_of_mem _ hkmem⟩
        simp only [nodeAtField, if_neg hne]
        exact hget
/-- Item-list version of `mem_nodes_nodeAt`. -/
theorem mem_itemNodes_nodeAt : ∀ (xs : List Json) (i : Nat) (base q : List Seg) (v : Json),
    wfItems xs = true → (q, v) ∈ itemNodes xs i base →
    ∃ n r, q = base ++ Seg.idx n :: r ∧ nodeAtItem xs (n - i) r = some v ∧ i ≤ n
  | [], i, base, q, v => by
      intro _ h
      simp [itemNodes] at h
  | x :: xs', i, base, q, v => by
      intro hwf h
      simp only [wfItems, Bool.and_eq_true] at hwf
      simp only [itemNodes, List.mem_append] at h
      rcases h with h | h
      · obtain ⟨r, hq, hget⟩ := mem_nodes_nodeAt x (base ++ [Seg.idx i]) q v hwf.1 h
        refine ⟨i, r, by simpa [List.append_assoc] using hq, ?_, Nat.le_refl i⟩
        rw [show i - i = 0 from by omega]
        exact hget
      · obtain ⟨n, r, hq, hget, hle⟩ := mem_itemNodes_nodeAt xs' (i + 1) base q v hwf.2 h
        refine ⟨n, r, hq, ?_, by omega⟩
        rw [show n - i = (n - (i + 1)) + 1 from by omega]
        exact hget
end

/-- Setting at the empty path replaces the whole value. -/
theorem setAtPath_nil (d w : Json) : setAtPath d [] w = w := by
  cases d <;> rfl

/-- Replacing under one key leaves lookups of other keys unchanged. -/
theorem setAtField_get_other : ∀ (fs : List (String × Json)) (k : String) (rest : List Seg)
    (w : Json) (kk : String), kk ≠ k →
    assocGet (setAtField fs k rest w) kk = assocGet fs kk
  | [], _, _, _, _ => by
      intro _
      rfl
  | (k0, v0) :: fs', k, rest, w, kk => by
      intro hkk
      simp only [setAtField]
      by_cases hk : k0 = k
      · rw [if_pos hk]
        simp only [assocGet]
        have hne : ¬(k0 = kk) := fun he => hkk (by rw [← he]; exact hk)
        rw [if_neg hne, if_neg hne]
      · rw [if_neg hk]
        simp only [assocGet]
        by_cases h0 : k0 = kk
        · rw [if_pos h0, if_pos h0]
        · rw [if_neg h0, if_neg h0]
          exact setAtField_get_other fs' k rest w kk hkk

mutual
/-- Setting at a resolving path puts the new value there. -/
theorem setAtPath_self : ∀ (d : Json) (p : List Seg) (w v : Json),
    nodeAt d p = some v → nodeAt (setAtPath d p w) p = some w
  | d, [], w, v => by
      intro _
      rw [setAtPath_nil]
      exact nodeAt_nil w
  | Json.obj fs, Seg.key k :: rest, w, v => by
      intro h
      exact setAtField_self fs k rest w v h
  | Json.obj _, Seg.idx _ :: _, w, v => fun h => Option.noConfusion h
  | Json.arr xs, Seg.idx n :: rest, w, v => by
      intro h
      exact setAtItem_self xs n rest w v h
  | Json.arr _, Seg.key _ :: _, w, v => fun h => Option.noConfusion h
  | Json.null, _ :: _, w, v => fun h => Option.noConfusion h
  | Json.undef, _ :: _, w, v => fun h => Option.noConfusion h
  | Json.bool _, _ :: _, w, v => fun h => Option.noConfusion h
  | Json.num _, _ :: _, w, v => fun h => Option.noConfusion h
  | Json.str _, _ :: _, w, v => fun h => Option.noConfusion h
/-- Field version of `setAtPath_self`. -/
theorem setAtField_self : ∀ (fs : List (String × Json)) (k : String) (rest : List Seg)
    (w v : Json), nodeAtField fs k rest = some v →
    nodeAtField (setAtField fs k rest w) k rest = some w
  | [], _, _, _, _ => fun h => Option.noConfusion h
  | (k0, v0) :: fs', k, rest, w, v => by
      intro h
      simp only [nodeAtField, setAtField] at h ⊢
      by_cases hk : k0 = k
      · rw [if_pos hk] at h
        rw [if_pos hk]
        simp only [nodeAtField, if_pos hk]
        exact setAtPath_self v0 rest w v h
      · rw [if_neg hk] at h
        rw [if_neg hk]
        simp only [nodeAtField, if_neg hk]
        exact setAtField_self fs' k rest w v h
/-- Item version of `setAtPath_self`. -/
theorem setAtItem_self : ∀ (xs : List Json) (n : Nat) (rest : List Seg) (w v : Json),
    nodeAtItem xs n rest = some v →
    nodeAtItem (setAtItem xs n rest w) n rest = some w
  | [], _, _, _, _ => fun h => Option.noConfusion h
  | x :: xs', 0, rest, w, v => by
      intro h
      exact setAtPath_self x rest w v h
  | x :: xs', n + 1, rest, w, v => by
      intro h
      exact setAtItem_self xs' n rest w v h
end

mutual
/-- Where a node of the patched document comes from: it is an untouched node
of the original, a node inside the written value, or (on the spine above the
written path) a container that agrees with the original at every child except
the one toward the written path. -/
theorem setAtPath_back : ∀ (d : Json) (p : List Seg) (w : Json) (q : List Seg) (u : Json),
    nodeAt (setAtPath d p w) q = some u →
    nodeAt d q = some u ∨
    (∃ s, q = p ++ s ∧ nodeAt w s = some u) ∨
    (∃ k s fs fs', p = q ++ Seg.key k :: s ∧ nodeAt d q = some (Json.obj fs) ∧
      u = Json.obj fs' ∧ ∀ kk, kk ≠ k → assocGet fs' kk = assocGet fs kk) ∨
    (∃ n s xs xs', p = q ++ Seg.idx n :: s ∧ nodeAt d q = some (Json.arr xs) ∧
      u = Json.arr xs')
  | d, [], w, q, u => by
      intro h
      rw [setAtPath_nil] at h
      exact Or.inr (Or.inl ⟨q, by simp, h⟩)
  | Json.obj fs, Seg.key k :: rest, w, [], u => by
      intro h
      rw [nodeAt_nil] at h
      refine Or.inr (Or.inr (Or.inl ⟨k, rest, fs, setAtField fs k rest w, by simp,
        nodeAt_nil _, (Option.some.inj h).symm, ?_⟩))
      intro kk hkk
      exact setAtField_get_other fs k rest w kk hkk
  | Json.obj fs, Seg.key k :: rest, w, Seg.key k' :: q', u => by
      intro h
      rcases setAtField_back fs k rest w k' q' u h with
        hA | ⟨hk, s, hq, hw⟩ | ⟨hk, kk, s, fs0, fs0', hrest, hget, hu, hagree⟩ |
          ⟨hk, m, s, xs0, xs0', hrest, hget, hu⟩
      · exact Or.inl hA
      · exact Or.inr (Or.inl ⟨s, by rw [hk, hq]; rfl, hw⟩)
      · refine Or.inr (Or.inr (Or.inl ⟨kk, s, fs0, fs0', ?_, ?_, hu, hagree⟩))
        · rw [hk, hrest]
          rfl
        · rw [show nodeAt (Json.obj fs) (Seg.key k' :: q') = nodeAtField fs k' q' from rfl, hk]
          exact hget
      · refine Or.inr (Or.inr (Or.inr ⟨m, s, xs0, xs0', ?_, ?_, hu⟩))
        · rw [hk, hrest]
          rfl
        · rw [show nodeAt (Json.obj fs) (Seg.key k' :: q') = nodeAtField fs k' q' from rfl, hk]
          exact hget
  | Json.obj _, Seg.key _ :: _, w, Seg.idx _ :: _, u => fun h => Option.noConfusion h
  | Json.obj fs, Seg.idx n :: rest, w, q, u => by
      intro h
      exact Or.inl h
  | Json.arr xs, Seg.idx n :: rest, w, [], u => by
      intro h
      rw [nodeAt_nil] at h
      exact Or.inr (Or.inr (Or.inr ⟨n, rest, xs, setAtItem xs n rest w, by simp,
        nodeAt_nil _, (Option.some.inj h).symm⟩))
  | Json.arr xs, Seg.idx n :: rest, w, Seg.idx n' :: q', u => by
      intro h
      rcases setAtItem_back xs n rest w n' q' u h with
        hA | ⟨hn, s, hq, hw⟩ | ⟨hn, kk, s, fs0, fs0', hrest, hget, hu, hagree⟩ |
          ⟨hn, m, s, xs0, xs0', hrest, hget, hu⟩
      · exact Or.inl hA
      · exact Or.inr (Or.inl ⟨s, by rw [hn, hq]; rfl, hw⟩)
      · refine Or.inr (Or.inr (Or.inl ⟨kk, s, fs0, fs0', ?_, ?_, hu, hagree⟩))
        · rw [hn, hrest]
          rfl
        · rw [show nodeAt (Json.arr xs) (Seg.idx n' :: q') = nodeAtItem xs n' q' from rfl, hn]
          exact hget
      · refine Or.inr (Or.inr (Or.inr ⟨m, s, xs0, xs0', ?_, ?_, hu⟩))
        · rw [hn, hrest]
          rfl
        · rw [show nodeAt (Json.arr xs) (Seg.idx n' :: q') = nodeAtItem xs n' q' from rfl, hn]
          exact hget
  | Json.arr _, Seg.idx _ :: _, w, Seg.key _ :: _, u => fun h => Option.noConfusion h
  | Json.arr xs, Seg.key _ :: _, w, q, u => by
      intro h
      exact Or.inl h
  | Json.null, _ :: _, w, q, u => by
      intro h
      exact Or.inl h
  | Json.undef, _ :: _, w, q, u => by
      intro h
      exact Or.inl h
  | Json.bool _, _ :: _, w, q, u => by
      intro h
      exact Or.inl h
  | Json.num _, _ :: _, w, q, u => by
      intro h
      exact Or.inl h
  | Json.str _, _ :: _, w, q, u => by
      intro h
      exact Or.inl h
/-- Field version of `setAtPath_back`. -/
theorem setAtField_back : ∀ (fs : List (String × Json)) (k : String) (rest : List Seg)
    (w : Json) (k' : String) (q' : List Seg) (u : Json),
    nodeAtField (setAtField fs k rest w) k' q' = some u →
    nodeAtField fs k' q' = some u ∨
    (k' = k ∧ ∃ s, q' = rest ++ s ∧ nodeAt w s = some u) ∨
    (k' = k ∧ ∃ kk s fs0 fs0', rest = q' ++ Seg.key kk :: s ∧
      nodeAtField fs k q' = some (Json.obj fs0) ∧ u = Json.obj fs0' ∧
      ∀ j, j ≠ kk → assocGet fs0' j = assocGet fs0 j) ∨
    (k' = k ∧ ∃ m s xs0 xs0', rest = q' ++ Seg.idx m :: s ∧
      nodeAtField fs k q' = some (Json.arr xs0) ∧ u = Json.arr xs0')
  | [], k, rest, w, k', q', u => fun h => Option.noConfusion h
  | (k0, v0) :: fs', k, rest, w, k', q', u => by
      intro h
      simp only [setAtField] at h
      by_cases hk0 : k0 = k
      · rw [if_pos hk0] at h
        simp only [nodeAtField] at h
        by_cases hk0' : k0 = k'
        · rw [if_pos hk0'] at h
          rcases setAtPath_back v0 rest w q' u h with
            hA | ⟨s, hq, hw⟩ | ⟨kk, s, fs0, fs0', hrest, hget, hu, hagree⟩ |
              ⟨m, s, xs0, xs0', hrest, hget, hu⟩
          · left
            simp only [nodeAtField, if_pos hk0']
            exact hA
          · exact Or.inr (Or.inl ⟨by rw [← hk0', hk0], s, hq, hw⟩)
          · refine Or.inr (Or.inr (Or.inl ⟨by rw [← hk0', hk0], kk, s, fs0, fs0',
              hrest, ?_, hu, hagree⟩))
            simp only [nodeAtField, if_pos hk0]
            exact hget
          · refine Or.inr (Or.inr (Or.inr ⟨by rw [← hk0', hk0], m, s, xs0, xs0',
              hrest, ?_, hu⟩))
            simp only [nodeAtField, if_pos hk0]
            exact hget
        · rw [if_neg hk0'] at h
          left
          simp only [nodeAtField, if_neg hk0']
          exact h
      · rw [if_neg hk0] at h
        simp only [nodeAtField] at h
        by_cases hk0' : k0 = k'
        · rw [if_pos hk0'] at h
          left
          simp only [nodeAtField, if_pos hk0']
          exact h
        · rw [if_neg hk0'] at h
          rcases setAtField_back fs' k rest w k' q' u h with
            hA | hB | ⟨hk, kk, s, fs0, fs0', hrest, hget, hu, hagree⟩ |
              ⟨hk, m, s, xs0, xs0', hrest, hget, hu⟩
          · left
            simp only [nodeAtField, if_neg hk0']
            exact hA
          · exact Or.inr (Or.inl hB)
          · refine Or.inr (Or.inr (Or.inl ⟨hk, kk, s, fs0, fs0', hrest, ?_, hu, hagree⟩))
            simp only [nodeAtField, if_neg hk0]
            exact hget
          · refine Or.inr (Or.inr (Or.inr ⟨hk, m, s, xs0, xs0', hrest, ?_, hu⟩))
            simp only [nodeAtField, if_neg hk0]
            exact hget
/-- Item version of `setAtPath_back`. -/
theorem setAtItem_back : ∀ (xs : List Json) (i : Nat) (rest : List Seg) (w : Json)
    (n : Nat) (q' : List Seg) (u : Json),
    nodeAtItem (setAtItem xs i rest w) n q' = some u →
    nodeAtItem xs n q' = some u ∨
    (n = i ∧ ∃ s, q' = rest ++ s ∧ nodeAt w s = some u) ∨
    (n = i ∧ ∃ kk s fs0 fs0', rest = q' ++ Seg.key kk :: s ∧
      nodeAtItem xs i q' = some (Json.obj fs0) ∧ u = Json.obj fs0' ∧
      ∀ j, j ≠ kk → assocGet fs0' j = assocGet fs0 j) ∨
    (n = i ∧ ∃ m s xs0 xs0', rest = q' ++ Seg.idx m :: s ∧
      nodeAtItem xs i q' = some (Json.arr xs0) ∧ u = Json.arr xs0')
  | [], _, _, _, _, _, _ => fun h => Option.noConfusion h
  | x :: xs', 0, rest, w, 0, q', u => by
      intro h
      rcases setAtPath_back x rest w q' u h with
        hA | hB | ⟨kk, s, fs0, fs0', hrest, hget, hu, hagree⟩ |
          ⟨m, s, xs0, xs0', hrest, hget, hu⟩
      · exact Or.inl hA
      · exact Or.inr (Or.inl ⟨rfl, hB⟩)
      · exact Or.inr (Or.inr (Or.inl ⟨rfl, kk, s, fs0, fs0', hrest, hget, hu, hagree⟩))
      · exact Or.inr (Or.inr (Or.inr ⟨rfl, m, s, xs0, xs0', hrest, hget, hu⟩))
  | x :: xs', 0, rest, w, n + 1, q', u => by
      intro h
      exact Or.inl h
  | x :: xs', i + 1, rest, w, 0, q', u => by
      intro h
      exact Or.inl h
  | x :: xs', i + 1, rest, w, n + 1, q', u => by
      intro h
      rcases setAtItem_back xs' i rest w n q' u h with
        hA | ⟨hn, hB⟩ | ⟨hn, kk, s, fs0, fs0', hrest, hget, hu, hagree⟩ |
          ⟨hn, m, s, xs0, xs0', hrest, hget, hu⟩
      · exact Or.inl hA
      · exact Or.inr (Or.inl ⟨by omega, hB⟩)
      · exact Or.inr (Or.inr (Or.inl ⟨by omega, kk, s, fs0, fs0', hrest, hget, hu, hagree⟩))
      · exact Or.inr (Or.inr (Or.inr ⟨by omega, m, s, xs0, xs0', hrest, hget, hu⟩))
end

/-- The upserted pair itself is always present after an upsert. -/
theorem assocSet_pair_self {α : Type} : ∀ (l : List (String × α)) (k : String) (v : α),
    (k, v) ∈ assocSet l k v
  | [], k, v => by simp [assocSet]
  | (k0, v0) :: rest, k, v => by
      simp only [assocSet]
      by_cases hk : k0 = k
      · rw [if_pos hk]
        exact List.mem_cons_self _ _
      · rw [if_neg hk]
        exact List.mem_cons_of_mem _ (assocSet_pair_self rest k v)

/-- Upserting at a different key preserves a pair's membership. -/
theorem assocSet_pair_other {α : Type} : ∀ (l : List (String × α)) (k : String) (v : α)
    (k' : String) (v' : α), (k, v) ∈ l → k ≠ k' → (k, v) ∈ assocSet l k' v'
  | [], _, _, _, _ => by
      intro h _
      simp at h
  | (k0, v0) :: rest, k, v, k', v' => by
      intro hm hne
      simp only [assocSet]
      rcases List.mem_cons.mp hm with he | hm'
      · simp only [Prod.mk.injEq] at he
        have hk : ¬(k0 = k') := fun h => hne (by rw [he.1, h])
        rw [if_neg hk]
        exact List.mem_cons.mpr (Or.inl (by simp [he.1, he.2]))
      · by_cases hk : k0 = k'
        · rw [if_pos hk]
          exact List.mem_cons_of_mem _ hm'
        · rw [if_neg hk]
          exact List.mem_cons_of_mem _ (assocSet_pair_other rest k v k' v' hm' hne)

/-- In-place replacement under one key keeps the key list unchanged. -/
theorem setAtField_keys : ∀ (fs : List (String × Json)) (k : String) (rest : List Seg)
    (w : Json), (setAtField fs k rest w).map Prod.fst = fs.map Prod.fst
  | [], _, _, _ => rfl
  | (k0, v0) :: fs', k, rest, w => by
      simp only [setAtField]
      by_cases hk : k0 = k
      · rw [if_pos hk]
        simp
      · rw [if_neg hk]
        simp [setAtField_keys fs' k rest w]

mutual
/-- Setting a well-formed value at any path in a well-formed document keeps it
well-formed. -/
theorem setAtPath_wf : ∀ (d : Json) (p : List Seg) (w : Json),
    wfJson d = true → wfJson w = true → wfJson (setAtPath d p w) = true
  | d, [], w => by
      intro _ hw
      rw [setAtPath_nil]
      exact hw
  | Json.obj fs, Seg.key k :: rest, w => by
      intro hd hw
      simp only [wfJson, Bool.and_eq_true] at hd
      show wfJson (Json.obj (setAtField fs k rest w)) = true
      simp only [wfJson, Bool.and_eq_true]
      exact ⟨by rw [setAtField_keys]; exact hd.1, setAtField_wf fs k rest w hd.2 hw⟩
  | Json.obj fs, Seg.idx n :: rest, w => by
      intro hd _
      exact hd
  | Json.arr xs, Seg.idx n :: rest, w => by
      intro hd hw
      show wfJson (Json.arr (setAtItem xs n rest w)) = true
      simp only [wfJson] at hd ⊢
      exact setAtItem_wf xs n rest w hd hw
  | Json.arr xs, Seg.key _ :: _, w => by
      intro hd _
      exact hd
  | Json.null, _ :: _, w => by
      intro hd _
      exact hd
  | Json.undef, _ :: _, w => by
      intro hd _
      exact hd
  | Json.bool _, _ :: _, w => by
      intro hd _
      exact hd
  | Json.num _, _ :: _, w => by
      intro hd _
      exact hd
  | Json.str _, _ :: _, w => by
      intro hd _
      exact hd
/-- Field version of `setAtPath_wf`. -/
theorem setAtField_wf : ∀ (fs : List (String × Json)) (k : String) (rest : List Seg)
    (w : Json), wfFields fs = true → wfJson w = true →
    wfFields (setAtField fs k rest w) = true
  | [], _, _, _ => fun h _ => h
  | (k0, v0) :: fs', k, rest, w => by
      intro hf hw
      simp only [wfFields, Bool.and_eq_true] at hf
      simp only [setAtField]
      by_cases hk : k0 = k
      · rw [if_pos hk]
        simp only [wfFields, Bool.and_eq_true]
        exact ⟨setAtPath_wf v0 rest w hf.1 hw, hf.2⟩
      · rw [if_neg hk]
        simp only [wfFields, Bool.and_eq_true]
        exact ⟨hf.1, setAtField_wf fs' k rest w hf.2 hw⟩
/-- Item version of `setAtPath_wf`. -/
theorem setAtItem_wf : ∀ (xs : List Json) (i : Nat) (rest : List Seg) (w : Json),
    wfItems xs = true → wfJson w = true → wfItems (setAtItem xs i rest w) = true
  | [], _, _, _ => fun h _ => h
  | x :: xs', 0, rest, w => by
      intro hx hw
      simp only [wfItems, Bool.and_eq_true] at hx ⊢
      exact ⟨setAtPath_wf x rest w hx.1 hw, hx.2⟩
  | x :: xs', i + 1, rest, w => by
      intro hx hw
      simp only [wfItems, Bool.and_eq_true] at hx ⊢
      exact ⟨hx.1, setAtItem_wf xs' i rest w hx.2 hw⟩
end

/-- Applying set entries with well-formed values preserves well-formedness. -/
theorem applySetEntries_wf (doc : Json) (entries : List (String × Json))
    (hd : wfJson doc = true) (he : ∀ e ∈ entries, wfJson e.2 = true) :
    wfJson (applySetEntries doc entries) = true := by
  rw [applySetEntries]
  refine foldl_inv (fun d => wfJson d = true) _ entries doc hd ?_
  intro a x hx ha
  rcases hp : parsePathExpr x.1 with _ | p
  · simpa [hp] using ha
  · simpa [hp] using setAtPath_wf a p x.2 ha (he x hx)

mutual
/-- Every value reachable in a well-formed document is well-formed. -/
theorem nodeAt_wf : ∀ (d : Json) (p : List Seg) (v : Json),
    wfJson d = true → nodeAt d p = some v → wfJson v = true
  | d, [], v => by
      intro hd h
      rw [nodeAt_nil] at h
      rw [← Option.some.inj h]
      exact hd
  | Json.obj fs, Seg.key k :: rest, v => by
      intro hd h
      simp only [wfJson, Bool.and_eq_true] at hd
      exact nodeAtField_wf fs k rest v hd.2 h
  | Json.obj _, Seg.idx _ :: _, v => fun _ h => Option.noConfusion h
  | Json.arr xs, Seg.idx n :: rest, v => by
      intro hd h
      simp only [wfJson] at hd
      exact nodeAtItem_wf xs n rest v hd h
  | Json.arr _, Seg.key _ :: _, v => fun _ h => Option.noConfusion h
  | Json.null, _ :: _, v => fun _ h => Option.noConfusion h
  | Json.undef, _ :: _, v => fun _ h => Option.noConfusion h
  | Json.bool _, _ :: _, v => fun _ h => Option.noConfusion h
  | Json.num _, _ :: _, v => fun _ h => Option.noConfusion h
  | Json.str _, _ :: _, v => fun _ h => Option.noConfusion h
/-- Field version of `nodeAt_wf`. -/
theorem nodeAtField_wf : ∀ (fs : List (String × Json)) (k : String) (rest : List Seg)
    (v : Json), wfFields fs = true → nodeAtField fs k rest = some v → wfJson v = true
  | [], _, _, _ => fun _ h => Option.noConfusion h
  | (k0, v0) :: fs', k, rest, v => by
      intro hf h
      simp only [wfFields, Bool.and_eq_true] at hf
      simp only [nodeAtField] at h
      by_cases hk : k0 = k
      · rw [if_pos hk] at h
        exact nodeAt_wf v0 rest v hf.1 h
      · rw [if_neg hk] at h
        exact nodeAtField_wf fs' k rest v hf.2 h
/-- Item version of `nodeAt_wf`. -/
theorem nodeAtItem_wf : ∀ (xs : List Json) (i : Nat) (rest : List Seg) (v : Json),
    wfItems xs = true → nodeAtItem xs i rest = some v → wfJson v = true
  | [], _, _, _ => fun _ h => Option.noConfusion h
  | x :: xs', 0, rest, v => by
      intro hx h
      simp only [wfItems, Bool.and_eq_true] at hx
      exact nodeAt_wf x rest v hx.1 h
  | x :: xs', i + 1, rest, v => by
      intro hx h
      simp only [wfItems, Bool.and_eq_true] at hx
      exact nodeAtItem_wf xs' i rest v hx.2 h
end

/-- An upsert at a present key leaves the key list unchanged. -/
theorem assocSet_keys_present {α : Type} : ∀ (l : List (String × α)) (k : String) (v v0 : α),
    assocGet l k = some v0 → (assocSet l k v).map Prod.fst = l.map Prod.fst
  | [], _, _, _ => by
      intro h
      exact Option.noConfusion h
  | (k0, w0) :: rest, k, v, v0 => by
      intro h
      simp only [assocGet] at h
      simp only [assocSet]
      by_cases hk : k0 = k
      · rw [if_pos hk]
        simp [hk]
      · rw [if_neg hk] at h ⊢
        simp [assocSet_keys_present rest k v v0 h]

/-- Upserting a well-formed value into well-formed fields keeps them
well-formed. -/
theorem wfFields_assocSet : ∀ (l : List (String × Json)) (k : String) (v : Json),
    wfFields l = true → wfJson v = true → wfFields (assocSet l k v) = true
  | [], k, v => by
      intro _ hv
      simp [assocSet, wfFields, hv]
  | (k0, v0) :: rest, k, v => by
      intro hf hv
      simp only [wfFields, Bool.and_eq_true] at hf
      simp only [assocSet]
      by_cases hk : k0 = k
      · rw [if_pos hk]
        simp only [wfFields, Bool.and_eq_true]
        exact ⟨hv, hf.2⟩
      · rw [if_neg hk]
        simp only [wfFields, Bool.and_eq_true]
        exact ⟨hf.1, wfFields_assocSet rest k v hf.2 hv⟩

/-- The repaired copy of a well-formed reference object is well-formed. -/
theorem wf_fixed (fields : List (String × Json)) (r : String)
    (hwf : wfJson (Json.obj fields) = true)
    (hr : assocGet fields "_ref" = some (Json.str r)) :
    wfJson (Json.obj (assocSet fields "_ref" (Json.str (getPublishedId r)))) = true := by
  simp only [wfJson, Bool.and_eq_true] at hwf ⊢
  refine ⟨?_, wfFields_assocSet fields "_ref" _ hwf.2 rfl⟩
  rw [assocSet_keys_present fields "_ref" _ _ hr]
  exact hwf.1

/-- Every value of the accumulated date patch object is the string
`richDate`. -/
theorem dateEntries_vals (doc : Json) :
    ∀ kv ∈ jsonReduce datePatchStep doc [], kv.2 = Json.str "richDate" := by
  intro kv hkv
  obtain ⟨p, value, _, _, _, hv⟩ := datePatches_keys doc kv.1 kv.2 (by simpa using hkv)
  exact hv

/-- Every matched date node contributes its dot-joined entry to the final
patch object. -/
theorem dateEntries_complete (doc : Json) (q : List Seg) (v : Json)
    (hmem : (q, v) ∈ jsonNodes doc []) (hm : dateMatch v q = true) :
    (joinDot q, Json.str "richDate") ∈ jsonReduce datePatchStep doc [] := by
  obtain ⟨l1, l2, hsplit⟩ := List.append_of_mem hmem
  rw [jsonReduce, hsplit, List.foldl_append, List.foldl_cons]
  have hstep : (joinDot q, Json.str "richDate") ∈
      datePatchStep (List.foldl (fun acc pv => datePatchStep acc pv.2 pv.1) [] l1) v q := by
    rw [datePatchStep_eq, if_pos hm]
    exact assocSet_pair_self _ _ _
  refine foldl_inv (fun acc => (joinDot q, Json.str "richDate") ∈ acc) _ l2 _ hstep ?_
  intro a x hx ha
  rw [datePatchStep_eq]
  by_cases hm' : dateMatch x.2 x.1
  · rw [if_pos hm']
    by_cases hk : joinDot q = joinDot x.1
    · rw [← hk]
      exact assocSet_pair_self a (joinDot q) (Json.str "richDate")
    · exact assocSet_pair_other a _ _ _ _ ha hk
  · rw [if_neg hm']
    exact ha

/-- Splitting an application of set entries at a list split. -/
theorem applySetEntries_append (d : Json) (xs ys : List (String × Json)) :
    applySetEntries d (xs ++ ys) = applySetEntries (applySetEntries d xs) ys := by
  simp [applySetEntries, List.foldl_append]

/-- Applying one parsable entry is a single structured write. -/
theorem applySetEntries_single (d : Json) (k : String) (v : Json) (p : List Seg)
    (hp : parsePathExpr k = some p) :
    applySetEntries d [(k, v)] = setAtPath d p v := by
  simp [applySetEntries, hp]

/-- Writing only `richDate` strings never creates a `date` node: a `date` hit
after application was already present before. -/
theorem dateBack (q : List Seg) :
    ∀ (es : List (String × Json)) (d : Json),
    (∀ e ∈ es, e.2 = Json.str "richDate") →
    nodeAt (applySetEntries d es) q = some (Json.str "date") →
    nodeAt d q = some (Json.str "date") := by
  intro es
  induction es with
  | nil =>
      intro d _ h
      simpa [applySetEntries] using h
  | cons e es' ih =>
      intro d hvals h
      simp only [applySetEntries, List.foldl_cons] at h
      have h2 := ih _ (fun x hx => hvals x (List.mem_cons_of_mem _ hx))
        (by simp only [applySetEntries]; exact h)
      have hval : e.2 = Json.str "richDate" := hvals e (List.mem_cons_self _ _)
      rcases hp : parsePathExpr e.1 with _ | p
      · simp only [hp] at h2
        exact h2
      · simp only [hp] at h2
        rw [hval] at h2
        rcases setAtPath_back d p (Json.str "richDate") q (Json.str "date") h2 with
          h1 | ⟨s, hq, hw⟩ | ⟨k, s, fs, fs', hp3, _, hu, _⟩ | ⟨n, s, xs, xs', hp4, _, hu⟩
        · exact h1
        · cases s with
          | nil =>
              rw [nodeAt_nil] at hw
              exact absurd (Json.str.inj (Option.some.inj hw)) (by decide)
          | cons a s' => exact Option.noConfusion hw
        · exact Json.noConfusion hu
        · exact Json.noConfusion hu

/-- The date-transform round trip: when every matched path's dot-joined
rendering parses back to itself under the path-expression grammar, applying the
generated set patch removes every `date` node, and re-running the transform
yields `null`. -/
theorem date_roundtrip (doc : Json) (patch : SetPatch)
    (hwf : wfJson doc = true)
    (hparse : ∀ pv ∈ jsonNodes doc [], dateMatch pv.2 pv.1 = true →
      parsePathExpr (joinDot pv.1) = some pv.1)
    (hgen : generatePatchesForDocument doc = some patch) :
    generatePatchesForDocument (applySetEntries doc patch.set) = none := by
  have hset : patch.set = jsonReduce datePatchStep doc [] := by
    simp only [generatePatchesForDocument] at hgen
    by_cases hlen : (jsonReduce datePatchStep doc []).length = 0
    · rw [if_pos hlen] at hgen
      exact Option.noConfusion hgen
    · rw [if_neg hlen] at hgen
      rw [← Option.some.inj hgen]
  have hvals : ∀ e ∈ patch.set, e.2 = Json.str "richDate" := by
    rw [hset]
    exact dateEntries_vals doc
  refine generatePatches_none_of_noMatch _ ?_
  intro pv hpv
  by_contra hmatch
  have hm : dateMatch pv.2 pv.1 = true := by simpa using hmatch
  have hwf' : wfJson (applySetEntries doc patch.set) = true :=
    applySetEntries_wf doc patch.set hwf (fun e he => by rw [hvals e he]; rfl)
  obtain ⟨r, hq, hget⟩ :=
    mem_nodes_nodeAt (applySetEntries doc patch.set) [] pv.1 pv.2 hwf' hpv
  have hqr : pv.1 = r := by simpa using hq
  have hv : pv.2 = Json.str "date" := by
    simp only [dateMatch, Bool.and_eq_true] at hm
    rcases hm with ⟨_, hm2⟩
    cases hval : pv.2 with
    | str s =>
        rw [hval] at hm2
        have hs : s = "date" := by simpa using hm2
        rw [hs]
    | null => rw [hval] at hm2; simp at hm2
    | undef => rw [hval] at hm2; simp at hm2
    | bool b => rw [hval] at hm2; simp at hm2
    | num n => rw [hval] at hm2; simp at hm2
    | arr xs => rw [hval] at hm2; simp at hm2
    | obj fs => rw [hval] at hm2; simp at hm2
  rw [hv] at hget
  have hdoc : nodeAt doc r = some (Json.str "date") := dateBack r patch.set doc hvals hget
  have hmemdoc : (r, Json.str "date") ∈ jsonNodes doc [] := by
    simpa using nodeAt_mem_nodes doc r (Json.str "date") [] hdoc
  have hmr : dateMatch (Json.str "date") r = true := by
    rw [hqr, hv] at hm
    exact hm
  have hpr : parsePathExpr (joinDot r) = some r :=
    hparse (r, Json.str "date") hmemdoc hmr
  have hentry : (joinDot r, Json.str "richDate") ∈ patch.set := by
    rw [hset]
    exact dateEntries_complete doc r (Json.str "date") hmemdoc hmr
  obtain ⟨l1, l2, hsplit⟩ := List.append_of_mem hentry
  rw [hsplit] at hget hvals
  rw [show l1 ++ (joinDot r, Json.str "richDate") :: l2 =
    (l1 ++ [(joinDot r, Json.str "richDate")]) ++ l2 by simp] at hget
  rw [applySetEntries_append, applySetEntries_append,
    applySetEntries_single _ _ _ r hpr] at hget
  have hmid : nodeAt (setAtPath (applySetEntries doc l1) r (Json.str "richDate")) r =
      some (Json.str "date") := by
    refine dateBack r l2 _ ?_ hget
    intro x hx
    exact hvals x (by simp [hx])
  rcases setAtPath_back (applySetEntries doc l1) r (Json.str "richDate") r
      (Json.str "date") hmid with
    h1 | ⟨s, hq2, hw⟩ | ⟨k, s, fs, fs', hp3, _, hu, _⟩ | ⟨n, s, xs, xs', hp4, _, hu⟩
  · have hself := setAtPath_self (applySetEntries doc l1) r (Json.str "richDate")
      (Json.str "date") h1
    exact absurd (Json.str.inj (Option.some.inj (hmid.symm.trans hself))) (by decide)
  · have hs : s = [] := by
      have hlen := congrArg List.length hq2
      simp at hlen
      exact hlen
    rw [hs, nodeAt_nil] at hw
    exact absurd (Json.str.inj (Option.some.inj hw)) (by decide)
  · exact Json.noConfusion hu
  · exact Json.noConfusion hu

/-- The match and safety flags of an object depend only on its `_ref` and
`_weak` lookups. -/
theorem ref_flags_congr (a b : List (String × Json))
    (hr : assocGet a "_ref" = assocGet b "_ref")
    (hw : assocGet a "_weak" = assocGet b "_weak") :
    refMatch (Json.obj a) = refMatch (Json.obj b) ∧
    refUnsafe (Json.obj a) = refUnsafe (Json.obj b) := by
  constructor
  · simp only [refMatch, jsGetF, hr, hw]
  · simp only [refUnsafe, hr, hw]

/-- A node that the reference walk either repairs or throws on. -/
def refDirty (v : Json) : Bool := refMatch v || refUnsafe v

/-- On a matching node the reference step appends exactly one repaired
entry. -/
theorem badRefStep_matched (l : List BadRef) (v : Json) (p : List Seg)
    (hm : refMatch v = true) :
    ∃ fields r, v = Json.obj fields ∧ assocGet fields "_ref" = some (Json.str r) ∧
      badRefStep (Except.ok l) v p = Except.ok (l ++ [⟨serializePath p,
        Json.obj (assocSet fields "_ref" (Json.str (getPublishedId r)))⟩]) := by
  cases v with
  | null => simp [refMatch, jsGetF] at hm
  | undef => simp [refMatch, jsGetF] at hm
  | bool b => simp [refMatch, jsGetF] at hm
  | num n => simp [refMatch, jsGetF] at hm
  | str s => simp [refMatch, jsGetF] at hm
  | arr items => simp [refMatch, jsGetF] at hm
  | obj fields =>
      simp only [refMatch, jsGetF] at hm
      rcases hr : assocGet fields "_ref" with _ | rv
      · rw [hr] at hm
        simp at hm
      · rw [hr] at hm
        cases rv with
        | str r =>
            simp only [Bool.and_eq_true] at hm
            have ht : truthy (Json.str r) = true := hm.1.1
            have hw : truthyOpt (assocGet fields "_weak") = false := by
              simpa using hm.1.2
            have hd : isDraftId r = true := hm.2
            refine ⟨fields, r, rfl, hr, ?_⟩
            simp [badRefStep, isObjectTypeof, jsGetF, hr, ht, hw, hd]
        | null => simp at hm
        | undef => simp at hm
        | bool b => simp at hm
        | num n => simp at hm
        | arr xs => simp at hm
        | obj fs => simp at hm

/-- Every matched reference node contributes an entry at its serialized path
to a successful walk's result. -/
theorem badRefs_complete (doc : Json) (brs : List BadRef)
    (hred : jsonReduce badRefStep doc (Except.ok []) = Except.ok brs)
    (q : List Seg) (u : Json) (hmem : (q, u) ∈ jsonNodes doc [])
    (hm : refMatch u = true) :
    ∃ b ∈ brs, b.path = serializePath q := by
  obtain ⟨l1, l2, hsplit⟩ := List.append_of_mem hmem
  rw [jsonReduce, hsplit, List.foldl_append] at hred
  rcases hpre : List.foldl (fun acc pv => badRefStep acc pv.2 pv.1)
      (Except.ok ([] : List BadRef)) l1 with e | l0
  · rw [hpre] at hred
    have hprop : List.foldl (fun acc pv => badRefStep acc pv.2 pv.1)
        (Except.error e) ((q, u) :: l2) = Except.error e := badRefStep_foldl_error _ e
    rw [hprop] at hred
    exact Except.noConfusion hred
  · rw [hpre, List.foldl_cons] at hred
    obtain ⟨fields, r, hv, hrf, hstep⟩ := badRefStep_matched l0 u q hm
    have hb0 : (⟨serializePath q,
        Json.obj (assocSet fields "_ref" (Json.str (getPublishedId r)))⟩ : BadRef) ∈
        l0 ++ [⟨serializePath q,
          Json.obj (assocSet fields "_ref" (Json.str (getPublishedId r)))⟩] := by
      simp
    have hchain : ∀ (l' : List (List Seg × Json)) (acc : List BadRef) (b : BadRef),
        b ∈ acc →
        List.foldl (fun acc pv => badRefStep acc pv.2 pv.1) (Except.ok acc) l' =
          Except.ok brs → b ∈ brs := by
      intro l'
      induction l' with
      | nil =>
          intro acc b hb hfold
          have : acc = brs := Except.ok.inj hfold
          rw [← this]
          exact hb
      | cons x xs ih =>
          intro acc b hb hfold
          rw [List.foldl_cons] at hfold
          rcases hs : badRefStep (Except.ok acc) x.2 x.1 with e | acc'
          · rw [hs, badRefStep_foldl_error xs e] at hfold
            exact Except.noConfusion hfold
          · rw [hs] at hfold
            rcases badRefStep_ok_cases acc acc' x.2 x.1 hs with h' | ⟨_, _, _, _, _, _, _, h'⟩
            · exact ih acc' b (by rw [h']; exact hb) hfold
            · exact ih acc' b (by rw [h']; exact List.mem_append_left _ hb) hfold
    have hbm := hchain l2 _ _ hb0 (by rw [← hstep]; exact hred)
    exact ⟨_, hbm, rfl⟩

/-- Each repaired reference's path is bound in the document's set patch. -/
theorem setPatch_key_present (brs : List BadRef) (b : BadRef) (hb : b ∈ brs) :
    ∃ w, (b.path, w) ∈ brs.foldl (fun s x => assocSet s x.path x.fixed) [] := by
  obtain ⟨l1, l2, hsplit⟩ := List.append_of_mem hb
  rw [hsplit, List.foldl_append, List.foldl_cons]
  have h0 : assocGet (assocSet (List.foldl (fun s x => assocSet s x.path x.fixed)
      ([] : List (String × Json)) l1) b.path b.fixed) b.path ≠ none := by
    rw [assocGet_assocSet_same]
    simp
  have hfin := foldl_inv (fun s => assocGet s b.path ≠ none)
    (fun s x => assocSet s x.path x.fixed) l2 _ h0
    (fun a x _ ha => assocGet_assocSet_ne_none a b.path x.path x.fixed ha)
  rcases hg : assocGet (List.foldl (fun s x => assocSet s x.path x.fixed)
      (assocSet (List.foldl (fun s x => assocSet s x.path x.fixed)
        ([] : List (String × Json)) l1) b.path b.fixed) l2) b.path with _ | w
  · exact absurd hg hfin
  · exact ⟨w, assocGet_mem _ _ _ hg⟩

/-- Writing only clean values along `_ref`/`_weak`-free paths never creates a
repairable or throwing node: a dirty node after application maps back to a
dirty node before. -/
theorem refBack (q : List Seg) :
    ∀ (es : List (String × Json)) (d : Json),
    (∀ e ∈ es, ∀ p, parsePathExpr e.1 = some p →
      (∀ pv ∈ jsonNodes e.2 [], refMatch pv.2 = false ∧ refUnsafe pv.2 = false) ∧
      (∀ k, Seg.key k ∈ p → k ≠ "_ref" ∧ k ≠ "_weak")) →
    ∀ u, nodeAt (applySetEntries d es) q = some u → refDirty u = true →
    ∃ w, nodeAt d q = some w ∧ refDirty w = true := by
  intro es
  induction es with
  | nil =>
      intro d _ u h hd
      exact ⟨u, by simpa [applySetEntries] using h, hd⟩
  | cons e es' ih =>
      intro d hes u h hd
      simp only [applySetEntries, List.foldl_cons] at h
      obtain ⟨u1, h1, hd1⟩ := ih _ (fun x hx => hes x (List.mem_cons_of_mem _ hx)) u
        (by simp only [applySetEntries]; exact h) hd
      rcases hp : parsePathExpr e.1 with _ | p
      · simp only [hp] at h1
        exact ⟨u1, h1, hd1⟩
      · simp only [hp] at h1
        obtain ⟨hclean, hsegs⟩ := hes e (List.mem_cons_self _ _) p hp
        rcases setAtPath_back d p e.2 q u1 h1 with
          hA | ⟨s, hq, hw⟩ | ⟨k, s, fs, fs', hpq, hget, hu, hagree⟩ |
            ⟨n, s, xs, xs', hpq, hget, hu⟩
        · exact ⟨u1, hA, hd1⟩
        · have hmem : (s, u1) ∈ jsonNodes e.2 [] := by
            simpa using nodeAt_mem_nodes e.2 s u1 [] hw
          obtain ⟨hm, hs⟩ := hclean (s, u1) hmem
          rw [refDirty, hm, hs] at hd1
          simp at hd1
        · have hkdiff := hsegs k (by rw [hpq]; simp)
          have hrefs : assocGet fs' "_ref" = assocGet fs "_ref" :=
            hagree "_ref" (fun he => hkdiff.1 he.symm)
          have hweaks : assocGet fs' "_weak" = assocGet fs "_weak" :=
            hagree "_weak" (fun he => hkdiff.2 he.symm)
          obtain ⟨hm, hs⟩ := ref_flags_congr fs' fs hrefs hweaks
          refine ⟨Json.obj fs, hget, ?_⟩
          rw [hu] at hd1
          rw [refDirty] at hd1 ⊢
          rw [← hm, ← hs]
          exact hd1
        · rw [hu] at hd1
          have hfalse : (false : Bool) = true := hd1
          exact Bool.noConfusion hfalse

/-- The reference-repair round trip: when every matched reference's serialized
path parses back to itself under the path-expression grammar, matched paths
avoid `_ref`/`_weak` key segments, and every repaired object is entirely
clean, applying the document's set patch removes every bad reference and the
re-run yields `null`. -/
theorem ref_roundtrip (doc : Json) (dbr : DocBadRefs) (sp : SetPatch)
    (hwf : wfJson doc = true)
    (hok : getBadRefsForDocument doc = Except.ok (some dbr))
    (hparse : ∀ pv ∈ jsonNodes doc [], refMatch pv.2 = true →
      parsePathExpr (serializePath pv.1) = some pv.1 ∧
      ∀ k, Seg.key k ∈ pv.1 → k ≠ "_ref" ∧ k ≠ "_weak")
    (hclean : ∀ b ∈ dbr.badRefs, ∀ pv ∈ jsonNodes b.fixed [],
      refMatch pv.2 = false ∧ refUnsafe pv.2 = false)
    (hsp : sp ∈ getSetPatches [dbr]) :
    getBadRefsForDocument (applySetEntries doc sp.set) = Except.ok none := by
  have hspe : sp.set = dbr.badRefs.foldl (fun s b => assocSet s b.path b.fixed) [] := by
    simp only [getSetPatches, List.map_cons, List.map_nil, List.mem_singleton] at hsp
    rw [hsp]
  have hred : jsonReduce badRefStep doc (Except.ok []) = Except.ok dbr.badRefs := by
    rw [getBadRefsForDocument] at hok
    rcases hr2 : jsonReduce badRefStep doc (Except.ok []) with e | brs
    · rw [hr2] at hok
      exact Except.noConfusion hok
    · rw [hr2] at hok
      replace hok : (Except.ok (if brs.length = 0 then none
          else some (⟨doc, brs⟩ : DocBadRefs)) : Except JsErr (Option DocBadRefs)) =
          Except.ok (some dbr) := hok
      have h2 := Except.ok.inj hok
      by_cases hlen : brs.length = 0
      · rw [if_pos hlen] at h2
        exact Option.noConfusion h2
      · rw [if_neg hlen] at h2
        have hdbr : dbr = ⟨doc, brs⟩ := (Option.some.inj h2).symm
        rw [hdbr]
  obtain ⟨-, hshape⟩ := getBadRefs_shape doc dbr hok
  have hentries : ∀ e ∈ sp.set, ∃ b ∈ dbr.badRefs, e.1 = b.path ∧ e.2 = b.fixed := by
    intro e he
    rw [hspe] at he
    exact setPatch_entries_shape dbr.badRefs e.1 e.2 (by simpa using he)
  have hes : ∀ e ∈ sp.set, ∀ p, parsePathExpr e.1 = some p →
      (∀ pv ∈ jsonNodes e.2 [], refMatch pv.2 = false ∧ refUnsafe pv.2 = false) ∧
      (∀ k, Seg.key k ∈ p → k ≠ "_ref" ∧ k ≠ "_weak") := by
    intro e he p hp
    obtain ⟨b, hb, hep, hef⟩ := hentries e he
    obtain ⟨pb, fields, r, hmemb, hrf, ht, hwk, hdr, hbp, hbf⟩ := hshape b hb
    have hmword : refMatch (Json.obj fields) = true := by
      simp [refMatch, jsGetF, hrf, ht, hwk, hdr]
    obtain ⟨hpb, hsegb⟩ := hparse (pb, Json.obj fields) hmemb hmword
    have hppb : p = pb := by
      rw [hep, hbp] at hp
      exact Option.some.inj (hp.symm.trans hpb)
    constructor
    · rw [hef]
      exact hclean b hb
    · rw [hppb]
      exact hsegb
  have hwfvals : ∀ e ∈ sp.set, wfJson e.2 = true := by
    intro e he
    obtain ⟨b, hb, _, hef⟩ := hentries e he
    obtain ⟨pb, fields, r, hmemb, hrf, _, _, _, _, hbf⟩ := hshape b hb
    obtain ⟨rr, hrq, hrget⟩ := mem_nodes_nodeAt doc [] pb (Json.obj fields) hwf hmemb
    have hwfv : wfJson (Json.obj fields) = true := nodeAt_wf doc rr _ hwf hrget
    rw [hef, hbf]
    exact wf_fixed fields r hwfv hrf
  have hwf' : wfJson (applySetEntries doc sp.set) = true :=
    applySetEntries_wf doc sp.set hwf hwfvals
  refine getBadRefs_ok_none_of_notBad _ ?_
  intro pv hpv
  have hdirty : refDirty pv.2 = false := by
    by_contra hcon
    have hdt : refDirty pv.2 = true := by simpa using hcon
    obtain ⟨r0, hq0, hget0⟩ :=
      mem_nodes_nodeAt (applySetEntries doc sp.set) [] pv.1 pv.2 hwf' hpv
    obtain ⟨w, hdw, hdirtyw⟩ := refBack r0 sp.set doc hes pv.2 hget0 hdt
    have hmemw : (r0, w) ∈ jsonNodes doc [] := by
      simpa using nodeAt_mem_nodes doc r0 w [] hdw
    have hsafe : refUnsafe w = false := refSafe_of_ok doc dbr.badRefs hred (r0, w) hmemw
    have hmw : refMatch w = true := by
      rw [refDirty, hsafe] at hdirtyw
      simpa using hdirtyw
    obtain ⟨b, hb, hbpath⟩ := badRefs_complete doc dbr.badRefs hred r0 w hmemw hmw
    obtain ⟨w0, hw0⟩ := setPatch_key_present dbr.badRefs b hb
    have hw0' : (b.path, w0) ∈ sp.set := by
      rw [hspe]
      exact hw0
    obtain ⟨hpr0, -⟩ := hparse (r0, w) hmemw hmw
    have hppath : parsePathExpr b.path = some r0 := by
      rw [hbpath]
      exact hpr0
    obtain ⟨l1, l2, hsplit⟩ := List.append_of_mem hw0'
    rw [hsplit] at hget0
    rw [show l1 ++ (b.path, w0) :: l2 = (l1 ++ [(b.path, w0)]) ++ l2 by simp] at hget0
    rw [applySetEntries_append, applySetEntries_append,
      applySetEntries_single _ _ _ r0 hppath] at hget0
    have hes2 : ∀ e ∈ l2, ∀ p, parsePathExpr e.1 = some p →
        (∀ pv ∈ jsonNodes e.2 [], refMatch pv.2 = false ∧ refUnsafe pv.2 = false) ∧
        (∀ k, Seg.key k ∈ p → k ≠ "_ref" ∧ k ≠ "_weak") := by
      intro e he
      exact hes e (by rw [hsplit]; simp [he])
    obtain ⟨u1, hmid, hdu1⟩ := refBack r0 l2 _ hes2 pv.2 hget0 hdt
    obtain ⟨b', hb', hb'p, hb'f⟩ := hentries (b.path, w0) hw0'
    have hcleanw0 : refDirty w0 = false := by
      have hbf2 : w0 = b'.fixed := hb'f
      obtain ⟨hm0, hs0⟩ := hclean b' hb' ([], w0) (by rw [hbf2]; exact jsonNodes_self _ [])
      simp [refDirty, hm0, hs0]
    rcases setAtPath_back (applySetEntries doc l1) r0 w0 r0 u1 hmid with
      h1 | ⟨s, hq2, hwn⟩ | ⟨k, s, fs, fs', hp3, _, _, _⟩ | ⟨n, s, xs, xs', hp4, _, _⟩
    · have hself := setAtPath_self (applySetEntries doc l1) r0 w0 u1 h1
      have hu1 : u1 = w0 := Option.some.inj (hmid.symm.trans hself)
      rw [hu1, hcleanw0] at hdu1
      exact Bool.noConfusion hdu1
    · have hs0 : s = [] := by
        have hlen := congrArg List.length hq2
        simp at hlen
        exact hlen
      rw [hs0, nodeAt_nil] at hwn
      have hu1 : u1 = w0 := (Option.some.inj hwn).symm
      rw [hu1, hcleanw0] at hdu1
      exact Bool.noConfusion hdu1
    · have hlen := congrArg List.length hp3
      simp at hlen
    · have hlen := congrArg List.length hp4
      simp at hlen
  simp only [refDirty, Bool.or_eq_false_iff] at hdirty
  exact hdirty

/-- C6 (amended): the set-patch round trip holds conditionally, not
unconditionally. Field rename: on a well-formed document each of whose matched
paths re-parses from its `join('.')` rendering, applying the generated set
entries and re-running the transform yields `null`. Reference repair: on a
well-formed document whose matched reference paths re-parse from their
serialized renderings and avoid `_ref`/`_weak` key segments, and whose
repaired reference objects are entirely clean (no remaining draft prefix, no
nested draft reference), applying the document's set patch and re-running the
transform yields `null`. -/
theorem c6_set_roundtrip :
    (∀ (doc : Json) (patch : SetPatch), wfJson doc = true →
      (∀ pv ∈ jsonNodes doc [], dateMatch pv.2 pv.1 = true →
        parsePathExpr (joinDot pv.1) = some pv.1) →
      generatePatchesForDocument doc = some patch →
      generatePatchesForDocument (applySetEntries doc patch.set) = none) ∧
    (∀ (doc : Json) (dbr : DocBadRefs) (sp : SetPatch), wfJson doc = true →
      getBadRefsForDocument doc = Except.ok (some dbr) →
      (∀ pv ∈ jsonNodes doc [], refMatch pv.2 = true →
        parsePathExpr (serializePath pv.1) = some pv.1 ∧
        ∀ k, Seg.key k ∈ pv.1 → k ≠ "_ref" ∧ k ≠ "_weak") →
      (∀ b ∈ dbr.badRefs, ∀ pv ∈ jsonNodes b.fixed [],
        refMatch pv.2 = false ∧ refUnsafe pv.2 = false) →
      sp ∈ getSetPatches [dbr] →
      getBadRefsForDocument (applySetEntries doc sp.set) = Except.ok none) :=
  ⟨fun doc patch hwf hparse hgen => date_roundtrip doc patch hwf hparse hgen,
   fun doc dbr sp hwf hok hparse hclean hsp =>
     ref_roundtrip doc dbr sp hwf hok hparse hclean hsp⟩

/-- A date document with an array-indexed match: its only entry key is
`a.0._type`. -/
def c6dateCexDoc : Json := Json.obj [("a", Json.arr [Json.obj [("_type", Json.str "date")]])]

/-- The patch the date transform generates for `c6dateCexDoc`. -/
def c6dateCexPatch : SetPatch := ⟨c6dateCexDoc, [("a.0._type", Json.str "richDate")]⟩

/-- A document holding a doubly-prefixed draft reference. -/
def c6refCexDoc : Json :=
  Json.obj [("a", Json.obj [("_ref", Json.str "drafts.drafts.x")])]

/-- The repair result for `c6refCexDoc`: one prefix stripped, still a draft
id. -/
def c6refCexDbr : DocBadRefs :=
  ⟨c6refCexDoc, [⟨"a", Json.obj [("_ref", Json.str "drafts.x")]⟩]⟩

/-- The set patch built from `c6refCexDbr`. -/
def c6refCexPatch : SetPatch :=
  ⟨c6refCexDoc, [("a", Json.obj [("_ref", Json.str "drafts.x")])]⟩

/-- The repair result of the patched document: it matches again. -/
def c6refCexDbr2 : DocBadRefs :=
  ⟨Json.obj [("a", Json.obj [("_ref", Json.str "drafts.x")])],
   [⟨"a", Json.obj [("_ref", Json.str "x")]⟩]⟩

/-- C6 counterexample: the unconditional round trip fails for both transforms.
The date rename joins an array index as `a.0._type`, which the path-expression
grammar reads as a pure key path that does not resolve, so the document is
unchanged and the re-run generates the same patch; a doubly-prefixed draft
reference is repaired to a still-draft reference, so the re-run still finds a
bad reference. -/
theorem c6_counterexample :
    generatePatchesForDocument c6dateCexDoc = some c6dateCexPatch ∧
    applySetEntries c6dateCexDoc c6dateCexPatch.set = c6dateCexDoc ∧
    generatePatchesForDocument (applySetEntries c6dateCexDoc c6dateCexPatch.set) ≠ none ∧
    getBadRefsForDocument c6refCexDoc = Except.ok (some c6refCexDbr) ∧
    c6refCexPatch ∈ getSetPatches [c6refCexDbr] ∧
    getBadRefsForDocument (applySetEntries c6refCexDoc c6refCexPatch.set) ≠
      Except.ok none := by
  refine ⟨rfl, rfl, ?_, rfl, List.mem_singleton.mpr rfl, ?_⟩
  · intro h
    exact Option.noConfusion (show (some c6dateCexPatch : Option SetPatch) = none from h)
  · intro h
    exact Option.noConfusion (Except.ok.inj
      (show (Except.ok (some c6refCexDbr2) : Except JsErr (Option DocBadRefs)) =
        Except.ok none from h))

/-- A well-behaved date document for the witness. -/
def c6dateWitnessDoc : Json := Json.obj [("foo", Json.obj [("_type", Json.str "date")])]

/-- Its generated patch. -/
def c6dateWitnessPatch : SetPatch := ⟨c6dateWitnessDoc, [("foo._type", Json.str "richDate")]⟩

/-- A well-behaved reference document for the witness. -/
def c6refWitnessDoc : Json := Json.obj [("r", Json.obj [("_ref", Json.str "drafts.x")])]

/-- Its repair result. -/
def c6refWitnessDbr : DocBadRefs :=
  ⟨c6refWitnessDoc, [⟨"r", Json.obj [("_ref", Json.str "x")]⟩]⟩

/-- Its set patch. -/
def c6refWitnessPatch : SetPatch :=
  ⟨c6refWitnessDoc, [("r", Json.obj [("_ref", Json.str "x")])]⟩

/-- Witness for C6: both round trips hold on concrete well-behaved documents,
with every hypothesis discharged by evaluation. -/
theorem c6_witness :
    generatePatchesForDocument
        (applySetEntries c6dateWitnessDoc c6dateWitnessPatch.set) = none ∧
    getBadRefsForDocument
        (applySetEntries c6refWitnessDoc c6refWitnessPatch.set) = Except.ok none := by
  constructor
  · refine c6_set_roundtrip.1 c6dateWitnessDoc c6dateWitnessPatch rfl ?_ rfl
    intro pv hpv
    have he : jsonNodes c6dateWitnessDoc [] =
        [([], c6dateWitnessDoc),
         ([Seg.key "foo"], Json.obj [("_type", Json.str "date")]),
         ([Seg.key "foo", Seg.key "_type"], Json.str "date")] := rfl
    rw [he] at hpv
    simp only [List.mem_cons, List.not_mem_nil, or_false] at hpv
    rcases hpv with rfl | rfl | rfl
    · decide
    · decide
    · decide
  · refine c6_set_roundtrip.2 c6refWitnessDoc c6refWitnessDbr c6refWitnessPatch
      rfl rfl ?_ ?_ ?_
    · intro pv hpv
      have he : jsonNodes c6refWitnessDoc [] =
          [([], c6refWitnessDoc),
           ([Seg.key "r"], Json.obj [("_ref", Json.str "drafts.x")]),
           ([Seg.key "r", Seg.key "_ref"], Json.str "drafts.x")] := rfl
      rw [he] at hpv
      simp only [List.mem_cons, List.not_mem_nil, or_false] at hpv
      rcases hpv with rfl | rfl | rfl
      · intro hm
        exact absurd hm (by decide)
      · intro hm
        refine ⟨by decide, ?_⟩
        intro k hk
        simp only [List.mem_singleton] at hk
        rw [Seg.key.inj hk]
        exact ⟨by decide, by decide⟩
      · intro hm
        exact absurd hm (by decide)
    · intro b hb
      have hb2 : b ∈ [(⟨"r", Json.obj [("_ref", Json.str "x")]⟩ : BadRef)] := hb
      rw [List.mem_singleton] at hb2
      subst hb2
      intro pv hpv
      have hpv2 : pv ∈ jsonNodes (Json.obj [("_ref", Json.str "x")]) [] := hpv
      have he : jsonNodes (Json.obj [("_ref", Json.str "x")]) [] =
          [([], Json.obj [("_ref", Json.str "x")]),
           ([Seg.key "_ref"], Json.str "x")] := rfl
      rw [he] at hpv2
      simp only [List.mem_cons, List.not_mem_nil, or_false] at hpv2
      rcases hpv2 with rfl | rfl
      · exact ⟨by decide, by decide⟩
      · exact ⟨by decide, by decide⟩
    · exact List.mem_singleton.mpr rfl
